import Mathlib

/-!
Verification of `zed_extension_release.py`, a release helper script that bumps
a version number across a set of text files and optionally commits/tags/pushes.

Text is modelled as `List Char`.  Each Python regex used by the script is
specialised here to an executable Lean matcher; for every pattern in the source
the backtracking behaviour is deterministic (each greedy subpattern is followed
by a character it can never consume, except the trailing `\s*$` groups, whose
longest-match semantics is implemented explicitly by `tailWsMatch`).
File contents and subprocess outputs are inputs of the model; fatal
`die`-terminations are modelled by `Option` results (`none` = fatal).
-/

namespace ZedRelease

/-- Python `\s` (also the default `str.strip` class for the ASCII inputs
used by the script): space, tab, newline, carriage return, vertical tab,
form feed. -/
def isWs (c : Char) : Bool :=
  c == ' ' || c == '\t' || c == '\n' || c == '\r' || c == '\x0b' || c == '\x0c'

/-- ASCII decimal digit, Python regex `\d` on this script's ASCII data. -/
def isDigit (c : Char) : Bool :=
  '0' ≤ c && c ≤ '9'

/-- Python regex word character `\w` (ASCII): letters, digits, underscore. -/
def isWordChar (c : Char) : Bool :=
  ('a' ≤ c && c ≤ 'z') || ('A' ≤ c && c ≤ 'Z') || isDigit c || c == '_'

/-- Python `str.strip()`: drop leading and trailing whitespace. -/
def pstrip (cs : List Char) : List Char :=
  ((cs.dropWhile isWs).reverse.dropWhile isWs).reverse

/-- The placeholder bullet substituted when empty notes are allowed. -/
def placeholderNote : List Char := "TODO: add release notes".toList

/-- `parse_notes`: combine explicit `--note` values with the stripped,
non-comment, non-blank lines of the notes file, strip and drop empties;
`none` models the fatal `die` when the cleaned list is empty and
`--allow-empty-notes` is not set.  The notes file is modelled by the list of
its lines (`none` = no `--notes-file` given); the fatal missing-file case is
outside this model. -/
def parse_notes (noteArgs : List (List Char)) (fileLines : Option (List (List Char)))
    (allowEmptyNotes : Bool) : Option (List (List Char)) :=
  let fromFile : List (List Char) :=
    match fileLines with
    | some ls => (ls.map pstrip).filter fun s => !s.isEmpty && !(['#'].isPrefixOf s)
    | none => []
  let notes := noteArgs ++ fromFile
  let cleaned := (notes.map pstrip).filter fun s => !s.isEmpty
  if cleaned.isEmpty then
    if allowEmptyNotes then some [placeholderNote] else none
  else
    some cleaned

/-- `git_status_files`: strip each stdout line of `git status --porcelain`,
drop blank lines, keep lines longer than 3 characters and drop their first
3 characters. -/
def git_status_files (stdoutLines : List (List Char)) : List (List Char) :=
  let lines := (stdoutLines.map pstrip).filter fun l => !l.isEmpty
  (lines.filter fun l => 3 < l.length).map fun l => l.drop 3

/-- `str(ROOT / name)`: the POSIX join of the absolute working directory
`root` (`ROOT = pathlib.Path.cwd()`) with a relative file name. -/
def absPath (root p : List Char) : List Char := root ++ '/' :: p

/-- The `--commit` block of `main` (given the already-computed status file
list): `changed_set = {str(path) for path in changed_files}` holds the
absolutised `str(ROOT / name)` strings of the changed files, whose relative
names are passed here; without `--allow-dirty`, die (`none`) when some status
file is not in that set; otherwise stage exactly `changed_files` (returned as
the staged list) and commit. -/
def commitStep (root : List Char) (changed_files : List (List Char))
    (statusFiles : List (List Char)) (allowDirty : Bool) :
    Option (List (List Char)) :=
  let changed_set := changed_files.map (absPath root)
  if !statusFiles.isEmpty && !allowDirty then
    let extras := statusFiles.filter fun p => !(changed_set.contains p)
    if !extras.isEmpty then none else some changed_files
  else
    some changed_files

/-- `git_tag` plus the `--tag` block of `main`: `tagListOutput` is the stdout
of `git tag --list v<version>`; die (`none`) when its stripped text is
non-empty, else create (return) the tag `v<version>`. -/
def tagStep (version : List Char) (tagListOutput : List Char) : Option (List Char) :=
  let tag := 'v' :: version
  if (pstrip tagListOutput).isEmpty then some tag else none

/-- Match a literal pattern at the head; on success return the remainder. -/
def parseLit (pat cs : List Char) : Option (List Char) :=
  if pat.isPrefixOf cs then some (cs.drop pat.length) else none

/-- Greedy `\d+` at the head (its follower in every pattern below is a
non-digit, so longest-match is the only match); on success return the
remainder. -/
def parseDigits1 : List Char → Option (List Char)
  | c :: rest => if isDigit c then some (rest.dropWhile isDigit) else none
  | [] => none

/-- Greedy `\s+` at the head; on success return the consumed run and the
remainder. -/
def spanWs1 : List Char → Option (List Char × List Char)
  | c :: rest =>
    if isWs c then some ((c :: rest).takeWhile isWs, (c :: rest).dropWhile isWs)
    else none
  | [] => none

/-- `\d+\.\d+\.\d+` at the head; on success return the remainder. -/
def parseTriple (cs : List Char) : Option (List Char) :=
  (parseDigits1 cs).bind fun r1 =>
  (parseLit ['.'] r1).bind fun r2 =>
  (parseDigits1 r2).bind fun r3 =>
  (parseLit ['.'] r3).bind fun r4 =>
  parseDigits1 r4

/-- A whole string of the shape `\d+\.\d+\.\d+` (a three-component version). -/
def isTriple (v : List Char) : Bool := parseTriple v == some []

/-- The trailing `\s*$` of a `re.M` pattern: the longest whitespace prefix
after which `$` matches (i.e. the next character is a newline, or the text
ends).  Returns the consumed length; `none` when no such prefix exists. -/
def tailWsMatch : List Char → Option Nat
  | [] => some 0
  | c :: rest =>
    if isWs c then
      match tailWsMatch rest with
      | some k => some (k + 1)
      | none => if c == '\n' then some 0 else none
    else none

/-- The readme pattern `(?m)^### Latest:\s*v\d+\.\d+\.\d+\s*$` tried at one
position (the `^` anchoring is the caller's job); on success return the text
after the match. -/
def matchLatest (cs : List Char) : Option (List Char) :=
  (parseLit "### Latest:".toList cs).bind fun r1 =>
  (parseLit ['v'] (r1.dropWhile isWs)).bind fun r3 =>
  (parseTriple r3).bind fun r4 =>
  (tailWsMatch r4).map fun k => r4.drop k

/-- The replacement text `### Latest: v{version}`. -/
def replLatest (v : List Char) : List Char := "### Latest: v".toList ++ v

/-- `i` is a position where `(?m)^` matches: the very start (when the scan
begins at a line start, recorded by `flag`) or just after a newline. -/
def lineStartAt (text : List Char) (flag : Bool) : Nat → Bool
  | 0 => flag
  | j + 1 => text[j]? == some '\n'

/-- `re.subn(pattern, repl, text, count=1)` for a `(?m)^`-anchored pattern:
scan left to right, try the matcher `M` at every line start, replace the
first match by `repl` and stop.  Returns the new text and whether a match
occurred. -/
def sub1 (M : List Char → Option (List Char)) (repl : List Char) :
    Bool → List Char → List Char × Bool
  | _, [] => ([], false)
  | lineStart, c :: rest =>
    if lineStart then
      match M (c :: rest) with
      | some after => (repl ++ after, true)
      | none =>
        let r := sub1 M repl (c == '\n') rest
        (c :: r.1, r.2)
    else
      let r := sub1 M repl (c == '\n') rest
      (c :: r.1, r.2)

/-- `replace_latest_readme`: substitute the first readme `### Latest:` line;
returns (original, updated, replacement made).  Total by construction — the
function has no fatal path. -/
def replace_latest_readme (text v : List Char) : List Char × List Char × Bool :=
  let r := sub1 matchLatest (replLatest v) true text
  (text, r.1, r.2)

/-- A quote character of the class written in the source's test-script
pattern. -/
def isQuote (c : Char) : Bool := c == '"' || c == '\''

/-- The test-script pattern
`(grep\s+-q\s+["'])(\d+\.\d+\.\d+)(["']\s+extension\.toml)` tried at one
position; on success return the texts of groups 1 and 3 and the remainder
after the match.  (As packaged, the source line lost a backslash and is not
valid Python; the evident intended character class `["']` is modelled.) -/
def matchGrep (cs : List Char) : Option (List Char × List Char × List Char) :=
  (parseLit "grep".toList cs).bind fun r1 =>
  (spanWs1 r1).bind fun p1 =>
  (parseLit "-q".toList p1.2).bind fun r3 =>
  (spanWs1 r3).bind fun p2 =>
  match p2.2 with
  | q1 :: r5 =>
    if isQuote q1 then
      (parseTriple r5).bind fun r6 =>
      match r6 with
      | q2 :: r7 =>
        if isQuote q2 then
          (spanWs1 r7).bind fun p3 =>
          (parseLit "extension.toml".toList p3.2).map fun r8 =>
            ("grep".toList ++ p1.1 ++ "-q".toList ++ p2.1 ++ [q1],
             q2 :: (p3.1 ++ "extension.toml".toList), r8)
        else none
      | [] => none
    else none
  | [] => none

/-- `re.subn` (no count) for the unanchored test-script pattern: replace every
non-overlapping match left to right, resuming after each match's end.  `skip`
counts characters of an already-replaced match still to drop (every match
consumes at least one character, so the resume point is inside `rest`). -/
def grepAux (v : List Char) : Nat → List Char → List Char × Bool
  | _, [] => ([], false)
  | n + 1, _ :: rest => grepAux v n rest
  | 0, c :: rest =>
    match matchGrep (c :: rest) with
    | some (g1, g3, after) =>
      let r := grepAux v (rest.length - after.length) rest
      (g1 ++ v ++ g3 ++ r.1, true)
    | none =>
      let r := grepAux v 0 rest
      (c :: r.1, r.2)

/-- `update_test_version_checks`: substitute every matching version literal;
returns (original, updated, any replacement made).  Total by construction —
the function has no fatal path. -/
def update_test_version_checks (text v : List Char) : List Char × List Char × Bool :=
  let r := grepAux v 0 text
  (text, r.1, r.2)

/-- The manifest pattern `version\s*=\s*"([^"]+)"` tried at one position:
greedy `[^"]+` runs to the next quote, which must exist.  On success return
the captured value and the remainder after the closing quote. -/
def matchVersionLine (cs : List Char) : Option (List Char × List Char) :=
  (parseLit "version".toList cs).bind fun r1 =>
  (parseLit ['='] (r1.dropWhile isWs)).bind fun r3 =>
  (parseLit ['"'] (r3.dropWhile isWs)).bind fun r5 =>
  let val := r5.takeWhile fun c => !(c == '"')
  if val.isEmpty then none
  else (parseLit ['"'] (r5.dropWhile fun c => !(c == '"'))).map fun r7 => (val, r7)

/-- `re.search` for the `(?m)^`-anchored manifest pattern: first match over
line starts; returns (text before the match, captured value, text after the
match). -/
def findVersion : Bool → List Char → Option (List Char × List Char × List Char)
  | _, [] => none
  | flag, c :: rest =>
    if flag then
      match matchVersionLine (c :: rest) with
      | some (val, after) => some ([], val, after)
      | none => (findVersion (c == '\n') rest).map fun p => (c :: p.1, p.2.1, p.2.2)
    else
      (findVersion (c == '\n') rest).map fun p => (c :: p.1, p.2.1, p.2.2)

/-- The manifest replacement text `version = "{version}"`. -/
def replVersion (v : List Char) : List Char := "version = \"".toList ++ v ++ ['"']

/-- `update_extension_toml`: die (`none`) when the pattern does not occur or
the first match's captured value already equals the target; else replace the
first matched region. -/
def update_extension_toml (text v : List Char) : Option (List Char) :=
  match findVersion true text with
  | none => none
  | some (pre, current, after) =>
    if current = v then none else some (pre ++ replVersion v ++ after)

/-- Word-boundary test of Python `\b` placed after the matched version:
`prev` is the last consumed character, `next?` the following character
(`none` at end of text). -/
def atBoundary (prev : Char) (next? : Option Char) : Bool :=
  match next? with
  | none => isWordChar prev
  | some n => isWordChar prev != isWordChar n

/-- The duplicate-heading pattern `^##\s+{re.escape(version)}\b` tried at one
position (for versions whose first character is not whitespace, the greedy
`\s+` needs no backtracking). -/
def matchDupHeading (version cs : List Char) : Option (List Char) :=
  (parseLit "##".toList cs).bind fun r1 =>
  (spanWs1 r1).bind fun p =>
  (parseLit version p.2).bind fun r2 =>
  let prev := (version.getLast?).getD (p.1.getLastD ' ')
  if atBoundary prev r2.head? then some r2 else none

/-- `re.search` for the duplicate-heading pattern: does any line start
match? -/
def hasDupHeading (version : List Char) : Bool → List Char → Bool
  | _, [] => false
  | flag, c :: rest =>
    (flag && (matchDupHeading version (c :: rest)).isSome)
      || hasDupHeading version (c == '\n') rest

/-- Whitespace other than a newline. -/
def isWsNoNl (c : Char) : Bool := isWs c && !(c == '\n')

/-- Modelled from the claim's words (C9): "some line of the changelog starts
with '##', whitespace, then version V followed by a word boundary" — the
check applied at a line start, reading only within that line (its whitespace
cannot contain a newline). -/
def lineDupAt (V cs : List Char) : Bool :=
  (((parseLit "##".toList cs).bind fun r1 =>
    match r1 with
    | c :: _ =>
      if isWsNoNl c then parseLit V (r1.dropWhile isWsNoNl) else none
    | [] => none).map fun r2 =>
      atBoundary ((V.getLast?).getD ' ') r2.head?).getD false

/-- Does `\n##\s` occur right here? -/
def nlHeadingAt (cs : List Char) : Bool :=
  match cs with
  | '\n' :: '#' :: '#' :: w :: _ => isWs w
  | _ => false

/-- `re.search(r"\n##\s", text)`: index of the first occurrence. -/
def findNlHeading : List Char → Option Nat
  | [] => none
  | c :: rest =>
    if nlHeadingAt (c :: rest) then some 0
    else (findNlHeading rest).map fun n => n + 1

/-- Python `str.rstrip()`. -/
def rstrip (cs : List Char) : List Char := (cs.reverse.dropWhile isWs).reverse

/-- `"\n".join(f"- {note}" for note in notes)`. -/
def bulletLines (notes : List (List Char)) : List Char :=
  List.intercalate ['\n'] (notes.map fun n => '-' :: ' ' :: n)

/-- The new changelog section `f"\n## {version}\n\n{bullets}\n"`. -/
def changelogSection (version : List Char) (notes : List (List Char)) : List Char :=
  '\n' :: '#' :: '#' :: ' ' :: (version ++ '\n' :: '\n' :: (bulletLines notes ++ ['\n']))

/-- `insert_changelog`: die (`none`) when a heading for the version already
exists; else insert the new section at the first `\n##\s` occurrence, or
append it to the stripped text. -/
def insert_changelog (text version : List Char) (notes : List (List Char)) :
    Option (List Char) :=
  if hasDupHeading version true text then none
  else some (match findNlHeading text with
    | some i => text.take i ++ changelogSection version notes ++ text.drop i
    | none => rstrip text ++ changelogSection version notes ++ ['\n'])

/-- Publishing pattern 1, `^- \[x\] \`extension\.toml\` version: .*?$`, tried
at one position: the lazy `.*?$` consumes the rest of the line (excluding the
newline). -/
def matchPubVersion (cs : List Char) : Option (List Char) :=
  (parseLit "- [x] `extension.toml` version: ".toList cs).map fun r =>
    r.dropWhile fun c => !(c == '\n')

/-- Publishing pattern 2, `^## Release Checklist for v\d+\.\d+\.\d+\s*$`,
tried at one position. -/
def matchPubHeader (cs : List Char) : Option (List Char) :=
  (parseLit "## Release Checklist for v".toList cs).bind fun r1 =>
  (parseTriple r1).bind fun r2 =>
  (tailWsMatch r2).map fun k => r2.drop k

/-- Publishing pattern 3, `^- \[ \] Create git tag v\d+\.\d+\.\d+\s*$`, tried
at one position. -/
def matchPubTag (cs : List Char) : Option (List Char) :=
  (parseLit "- [ ] Create git tag v".toList cs).bind fun r1 =>
  (parseTriple r1).bind fun r2 =>
  (tailWsMatch r2).map fun k => r2.drop k

def pubRepl1 (v : List Char) : List Char :=
  "- [x] `extension.toml` version: ".toList ++ v

def pubRepl2 (v : List Char) : List Char :=
  "## Release Checklist for v".toList ++ v

def pubRepl3 (v : List Char) : List Char :=
  "- [ ] Create git tag v".toList ++ v

def pubWarn1 : List Char :=
  "PUBLISHING.md: extension.toml version line not found".toList

def pubWarn2 : List Char :=
  "PUBLISHING.md: release checklist header not found".toList

def pubWarn3 : List Char :=
  "PUBLISHING.md: create git tag line not found".toList

/-- `update_publishing`: three `count=1` substitutions applied in sequence,
each collecting a warning when its pattern found no match in the text it
scanned; never fatal. -/
def update_publishing (text v : List Char) :
    List Char × List Char × List (List Char) :=
  let s1 := sub1 matchPubVersion (pubRepl1 v) true text
  let w1 : List (List Char) := if s1.2 then [] else [pubWarn1]
  let s2 := sub1 matchPubHeader (pubRepl2 v) true s1.1
  let w2 : List (List Char) := if s2.2 then [] else [pubWarn2]
  let s3 := sub1 matchPubTag (pubRepl3 v) true s2.1
  let w3 : List (List Char) := if s3.2 then [] else [pubWarn3]
  (text, s3.1, w1 ++ w2 ++ w3)

/-- Does some line start of `text` (scanned with initial flag `true`) match
`M`?  This is the `count>0` condition of `re.subn` for a `(?m)^`-anchored
pattern. -/
def occursAt (M : List Char → Option (List Char)) (text : List Char) : Bool :=
  decide (∃ i, i ≤ text.length ∧ lineStartAt text true i = true ∧
    (M (text.drop i)).isSome = true)

/-! Model of the file-editing phase of `main` (lines 236-275): an abstract
file system maps paths to optional contents. -/

def extPath : List Char := "extension.toml".toList

def changelogPath : List Char := "CHANGELOG.md".toList

def readmePath : List Char := "README.md".toList

def publishingPath : List Char := "PUBLISHING.md".toList

def testShPath : List Char := "test_extension.sh".toList

def testYmlPath : List Char := ".github/workflows/test.yml".toList

def fsWrite (fs : List Char → Option (List Char)) (path content : List Char) :
    List Char → Option (List Char) :=
  fun p => if p = path then some content else fs p

/-- `write_text` plus `changed_files.append`, guarded by `before != after`,
threading the (file system, changed-file list) state. -/
def writeStep (path before after : List Char)
    (st : (List Char → Option (List Char)) × List (List Char)) :
    (List Char → Option (List Char)) × List (List Char) :=
  if before = after then st else (fsWrite st.1 path after, st.2 ++ [path])

/-- The readme block of `main`: if the file exists, write it back and mark it
changed when the matcher reported a replacement and the text changed. -/
def readmeStep (v : List Char)
    (st : (List Char → Option (List Char)) × List (List Char)) :
    (List Char → Option (List Char)) × List (List Char) :=
  match st.1 readmePath with
  | some rdText =>
    let r := replace_latest_readme rdText v
    if r.2.2 && !(rdText = r.2.1 : Bool) then
      (fsWrite st.1 readmePath r.2.1, st.2 ++ [readmePath])
    else st
  | none => st

/-- The publishing block of `main` (warnings are printed, not tracked here). -/
def publishingStep (v : List Char)
    (st : (List Char → Option (List Char)) × List (List Char)) :
    (List Char → Option (List Char)) × List (List Char) :=
  match st.1 publishingPath with
  | some pubText =>
    writeStep publishingPath pubText (update_publishing pubText v).2.1 st
  | none => st

/-- One test-file block of `main`. -/
def testStep (v path : List Char)
    (st : (List Char → Option (List Char)) × List (List Char)) :
    (List Char → Option (List Char)) × List (List Char) :=
  match st.1 path with
  | some tText =>
    let r := update_test_version_checks tText v
    if r.2.2 && !(tText = r.2.1 : Bool) then
      (fsWrite st.1 path r.2.1, st.2 ++ [path])
    else st
  | none => st

/-- The file-editing phase of `main` (lines 233-275): required files are read
(missing → fatal), each transformer runs in order, and each file is written
back and recorded as changed only when its text changed (the readme and test
files additionally require the matcher's changed-flag, as in the source). -/
def mainEdits (fs : List Char → Option (List Char)) (v : List Char)
    (notes : List (List Char)) :
    Option ((List Char → Option (List Char)) × List (List Char)) :=
  match fs extPath with
  | none => none
  | some extText =>
    match fs changelogPath with
    | none => none
    | some changelogText =>
      match update_extension_toml extText v with
      | none => none
      | some extAfter =>
        match insert_changelog changelogText v notes with
        | none => none
        | some clAfter =>
          some (testStep v testYmlPath (testStep v testShPath (publishingStep v
            (readmeStep v (writeStep changelogPath changelogText clAfter
              (writeStep extPath extText extAfter (fs, [])))))))

/-! ### Claims C1, C4, C7 -/

/-- The commit guard dies exactly when some status file is outside the
absolutised changed set. -/
theorem commitStep_none_iff (root : List Char) (changed st : List (List Char)) :
    commitStep root changed st false = none ↔
      ∃ f ∈ st, f ∉ changed.map (absPath root) := by
  unfold commitStep
  rcases st with _ | ⟨a, l⟩
  · simp
  · simp only [List.isEmpty_cons, Bool.not_false, Bool.and_self, if_true]
    constructor
    · intro h
      by_contra hall
      push_neg at hall
      have hnil : ((a :: l).filter
          fun p => !((changed.map (absPath root)).contains p)) = [] := by
        rw [List.filter_eq_nil_iff]
        intro x hx
        simpa using hall x hx
      rw [hnil] at h
      simp at h
    · rintro ⟨f, hf, hnf⟩
      have hne : ((a :: l).filter
          fun p => !((changed.map (absPath root)).contains p)).isEmpty = false := by
        have hm : f ∈ (a :: l).filter
            fun p => !((changed.map (absPath root)).contains p) := by
          rw [List.mem_filter]
          exact ⟨hf, by simpa using hnf⟩
        rcases h' : (a :: l).filter
            fun p => !((changed.map (absPath root)).contains p) with _ | _
        · rw [h'] at hm; simp at hm
        · rfl
      rw [hne]
      simp

/-- When every status file is in the absolutised changed set, the commit
proceeds and stages exactly the changed files. -/
theorem commitStep_subset (root : List Char) (changed st : List (List Char))
    (h : ∀ f ∈ st, f ∈ changed.map (absPath root)) :
    commitStep root changed st false = some changed := by
  unfold commitStep
  rcases st with _ | ⟨a, l⟩
  · simp
  · have hnil : ((a :: l).filter
        fun p => !((changed.map (absPath root)).contains p)) = [] := by
      rw [List.filter_eq_nil_iff]
      intro x hx
      simpa using h x hx
    simp only [hnil]
    simp

/-- An absolutised name always starts with the absolute root's leading
slash, so it never equals a porcelain-derived relative name. -/
theorem absPath_head {root : List Char} (hroot : root.head? = some '/')
    (p : List Char) : (absPath root p).head? = some '/' := by
  unfold absPath
  rcases root with _ | ⟨r, rt⟩
  · exact absurd hroot (by simp)
  · exact hroot

/-- C1 (code bug): `main` compares the repo-relative (and strip-mangled)
names returned by `git_status_files` against `changed_set`, which holds the
absolutised `str(ROOT / name)` strings; an absolute name starts with `/` and
a porcelain-derived name does not, so no status file is ever in the set:
with `--commit` and without `--allow-dirty` the run dies exactly when
`git status` printed anything at all — in particular also when the reported
files are precisely the ones this run changed — and the commit proceeds only
on an empty status output. -/
theorem C1_commit_guard (root : List Char) (changed stdoutLines : List (List Char))
    (hroot : root.head? = some '/')
    (hrel : ∀ f ∈ git_status_files stdoutLines, f.head? ≠ some '/') :
    (commitStep root changed (git_status_files stdoutLines) false = none ↔
      git_status_files stdoutLines ≠ []) ∧
    (git_status_files stdoutLines = [] →
      commitStep root changed (git_status_files stdoutLines) false
        = some changed) := by
  have hnot : ∀ f ∈ git_status_files stdoutLines,
      f ∉ changed.map (absPath root) := by
    intro f hf hmem
    rw [List.mem_map] at hmem
    obtain ⟨p, _, hfp⟩ := hmem
    apply hrel f hf
    rw [← hfp]
    exact absPath_head hroot p
  constructor
  · constructor
    · intro hnone hempty
      rw [hempty] at hnone
      exact Option.noConfusion hnone
    · intro hne
      rw [commitStep_none_iff root changed]
      obtain ⟨a, ha⟩ := List.exists_mem_of_ne_nil _ hne
      exact ⟨a, ha, hnot a ha⟩
  · intro hempty
    rw [hempty]
    rfl

/-- All-blank note lists produce an empty cleaned list. -/
theorem cleaned_nil_of_all_blank (notes : List (List Char))
    (h : ∀ n ∈ notes, pstrip n = []) :
    ((notes.map pstrip).filter fun s => !s.isEmpty) = [] := by
  rw [List.filter_eq_nil_iff]
  intro a ha
  rw [List.mem_map] at ha
  rcases ha with ⟨b, hb, rfl⟩
  rw [h b hb]
  decide

/-- C4: when every explicit note strips to empty and every notes-file line is
blank or a comment after stripping, `parse_notes` dies without
`--allow-empty-notes` and returns exactly the single placeholder note with it. -/
theorem C4_parse_notes_empty (noteArgs : List (List Char))
    (fileLines : Option (List (List Char))) (allowEmptyNotes : Bool)
    (hargs : ∀ n ∈ noteArgs, pstrip n = [])
    (hfile : ∀ ls, fileLines = some ls →
      ∀ l ∈ ls, pstrip l = [] ∨ ['#'].isPrefixOf (pstrip l)) :
    parse_notes noteArgs fileLines allowEmptyNotes =
      if allowEmptyNotes then some [placeholderNote] else none := by
  rcases fileLines with _ | ls
  · simp only [parse_notes]
    rw [List.append_nil, cleaned_nil_of_all_blank noteArgs hargs]
    simp
  · have hfrom : ((ls.map pstrip).filter
        fun s => !s.isEmpty && !(['#'].isPrefixOf s)) = [] := by
      rw [List.filter_eq_nil_iff]
      intro a ha
      rw [List.mem_map] at ha
      rcases ha with ⟨c, hc, rfl⟩
      rcases hfile ls rfl c hc with h | h
      · rw [h]; decide
      · simp [h]
    simp only [parse_notes, hfrom]
    rw [List.append_nil, cleaned_nil_of_all_blank noteArgs hargs]
    simp

/-- C7: with `--tag`, the run dies without creating a tag iff
`git tag --list v<version>` printed something non-blank; otherwise the tag
`v<version>` is created. -/
theorem C7_tag_guard (version tagListOutput : List Char) :
    (¬ (pstrip tagListOutput).isEmpty = true →
      tagStep version tagListOutput = none) ∧
    ((pstrip tagListOutput).isEmpty = true →
      tagStep version tagListOutput = some ('v' :: version)) := by
  constructor
  · intro h
    simp [tagStep, Bool.not_eq_true] at h ⊢
    simp [h]
  · intro h
    simp [tagStep, h]

/-- Witness for C1 at a concrete input: the run's own edit of
`extension.toml` shows up as the porcelain line ` M extension.toml`
(strip-mangled to `xtension.toml`), the changed set holds the absolute name,
and the guard dies although the only reported change is the run's own file. -/
theorem C1_commit_guard_witness :
    "/repo".toList.head? = some '/' ∧
    (∀ f ∈ git_status_files [" M extension.toml".toList],
      f.head? ≠ some '/') ∧
    ((commitStep "/repo".toList ["extension.toml".toList]
        (git_status_files [" M extension.toml".toList]) false = none ↔
      git_status_files [" M extension.toml".toList] ≠ []) ∧
     (git_status_files [" M extension.toml".toList] = [] →
      commitStep "/repo".toList ["extension.toml".toList]
        (git_status_files [" M extension.toml".toList]) false
        = some ["extension.toml".toList])) :=
  ⟨by decide, by decide,
    C1_commit_guard "/repo".toList ["extension.toml".toList]
      [" M extension.toml".toList] (by decide) (by decide)⟩

/-- Witness for C4 at a concrete input: one blank explicit note and a
comment-only notes file, with `--allow-empty-notes` set. -/
theorem C4_parse_notes_empty_witness :
    parse_notes ["  ".toList] (some ["# comment".toList, "".toList]) true =
      some [placeholderNote] := by
  have := C4_parse_notes_empty ["  ".toList]
    (some ["# comment".toList, "".toList]) true
    (by decide)
    (by intro ls hls l hl
        cases hls
        simp only [List.mem_cons, List.not_mem_nil, or_false] at hl
        rcases hl with rfl | rfl
        · right; decide
        · left; decide)
  simpa using this

/-- Witness for C7 at a concrete input: a pre-existing tag listed by git makes
the tag step fatal. -/
theorem C7_tag_guard_witness :
    tagStep "0.0.9".toList "v0.0.9\n".toList = none := by
  exact (C7_tag_guard "0.0.9".toList "v0.0.9\n".toList).1 (by decide)

/-- A `(?m)^ count=1` substitution leaves a text with no match at any line
start unchanged, reporting no replacement. -/
theorem sub1_no_match (M : List Char → Option (List Char)) (repl : List Char) :
    ∀ (text : List Char) (flag : Bool),
      (∀ i ≤ text.length, lineStartAt text flag i = true → M (text.drop i) = none) →
      sub1 M repl flag text = (text, false)
  | [], _, _ => rfl
  | c :: rest, flag, h => by
    have hhead : flag = true → M (c :: rest) = none := fun hf => by
      have := h 0 (by omega) (by simp [lineStartAt, hf])
      simpa using this
    have hrec : sub1 M repl (c == '\n') rest = (rest, false) := by
      apply sub1_no_match
      intro i hi hls
      have h' := h (i + 1) (by simp only [List.length_cons]; omega)
      rw [List.drop_succ_cons] at h'
      apply h'
      cases i with
      | zero =>
        simp only [lineStartAt, List.getElem?_cons_zero] at hls ⊢
        simpa using hls
      | succ j =>
        simp only [lineStartAt, List.getElem?_cons_succ] at hls ⊢
        exact hls
    cases hf : flag with
    | false => simp [sub1, hrec]
    | true => simp [sub1, hhead hf, hrec]

/-- The all-matches scan for the test-script pattern leaves a text with no
match at any position unchanged, reporting no replacement. -/
theorem grepAux_no_match (v : List Char) :
    ∀ text : List Char, (∀ i ≤ text.length, matchGrep (text.drop i) = none) →
      grepAux v 0 text = (text, false)
  | [], _ => rfl
  | c :: rest, h => by
    have hhead : matchGrep (c :: rest) = none := by
      simpa using h 0 (by omega)
    have hrec : grepAux v 0 rest = (rest, false) :=
      grepAux_no_match v rest fun i hi => by
        have h' := h (i + 1) (by simp only [List.length_cons]; omega)
        rwa [List.drop_succ_cons] at h'
    simp [grepAux, hhead, hrec]

/-- C5: `replace_latest_readme` and `update_test_version_checks` are pure and
total (no fatal path); on a text with no occurrence of the respective target
pattern each returns the text unchanged with changed-flag `false`. -/
theorem C5_no_match_unchanged (text v : List Char) :
    ((∀ i ≤ text.length, lineStartAt text true i = true →
        matchLatest (text.drop i) = none) →
      replace_latest_readme text v = (text, text, false)) ∧
    ((∀ i ≤ text.length, matchGrep (text.drop i) = none) →
      update_test_version_checks text v = (text, text, false)) := by
  constructor
  · intro h
    unfold replace_latest_readme
    rw [sub1_no_match matchLatest (replLatest v) text true h]
  · intro h
    unfold update_test_version_checks
    rw [grepAux_no_match v text h]

/-- Witness for C5 at a concrete input with no occurrence of either pattern. -/
theorem C5_no_match_unchanged_witness :
    replace_latest_readme "hello\n".toList "9.9.9".toList =
      ("hello\n".toList, "hello\n".toList, false) ∧
    update_test_version_checks "hello\n".toList "9.9.9".toList =
      ("hello\n".toList, "hello\n".toList, false) :=
  ⟨(C5_no_match_unchanged "hello\n".toList "9.9.9".toList).1 (by decide),
   (C5_no_match_unchanged "hello\n".toList "9.9.9".toList).2 (by decide)⟩

/-! ### Decomposition lemmas for the parsers -/

theorem parseLit_eq_some {pat cs r : List Char} :
    parseLit pat cs = some r ↔ cs = pat ++ r := by
  unfold parseLit
  by_cases hpre : pat.isPrefixOf cs
  · rw [List.isPrefixOf_iff_prefix] at hpre
    obtain ⟨t, rfl⟩ := hpre
    rw [if_pos (List.isPrefixOf_iff_prefix.2 ⟨t, rfl⟩), List.drop_left]
    constructor
    · intro h
      injection h with h
      rw [h]
    · intro h
      rw [List.append_cancel_left h]
  · rw [if_neg hpre]
    constructor
    · intro h
      cases h
    · rintro rfl
      exact absurd (List.isPrefixOf_iff_prefix.2 ⟨r, rfl⟩) hpre

theorem parseLit_append {pat r r' : List Char} (after : List Char)
    (h : parseLit pat r = some r') :
    parseLit pat (r ++ after) = some (r' ++ after) := by
  rw [parseLit_eq_some] at h ⊢
  rw [h, List.append_assoc]

/-- Appending after a non-matching head does not disturb `dropWhile`. -/
theorem dropWhile_append_cons {p : Char → Bool} (A : List Char) {c : Char}
    (t : List Char) (hc : p c = false) :
    (A ++ c :: t).dropWhile p = A.dropWhile p ++ c :: t := by
  rw [List.dropWhile_append]
  split
  · rename_i h
    rw [List.isEmpty_iff] at h
    rw [h, List.nil_append]
    simp [List.dropWhile_cons, hc]
  · rfl

theorem parseDigits1_append {v r : List Char} (after : List Char)
    (h : parseDigits1 v = some r)
    (hr : r.isEmpty = false ∨ after = [] ∨ ∃ t, after = '\n' :: t) :
    parseDigits1 (v ++ after) = some (r ++ after) := by
  rcases v with _ | ⟨c, v'⟩
  · simp [parseDigits1] at h
  · simp only [parseDigits1, List.cons_append] at h ⊢
    by_cases hc : isDigit c
    · rw [if_pos hc] at h
      injection h with h
      rw [if_pos hc, List.dropWhile_append]
      split
      · rename_i hemp
        rw [List.isEmpty_iff] at hemp
        rw [hemp] at h
        rcases hr with hr | hr | ⟨t, rfl⟩
        · rw [← h] at hr
          simp at hr
        · rw [hr, ← h]
          rfl
        · rw [← h, List.nil_append]
          have hd : isDigit '\n' = false := by decide
          simp [List.dropWhile_cons, hd]
      · rw [h]
    · rw [if_neg hc] at h
      cases h

theorem parseTriple_append {v : List Char} (after : List Char)
    (h : parseTriple v = some [])
    (ha : after = [] ∨ ∃ t, after = '\n' :: t) :
    parseTriple (v ++ after) = some after := by
  unfold parseTriple at h ⊢
  rw [Option.bind_eq_some] at h
  obtain ⟨r1, h1, h⟩ := h
  rw [Option.bind_eq_some] at h
  obtain ⟨r2, h2, h⟩ := h
  rw [Option.bind_eq_some] at h
  obtain ⟨r3, h3, h⟩ := h
  rw [Option.bind_eq_some] at h
  obtain ⟨r4, h4, h5⟩ := h
  have e1 : parseDigits1 (v ++ after) = some (r1 ++ after) :=
    parseDigits1_append after h1 (Or.inl (by rw [parseLit_eq_some.1 h2]; rfl))
  have e3 : parseDigits1 (r2 ++ after) = some (r3 ++ after) :=
    parseDigits1_append after h3 (Or.inl (by rw [parseLit_eq_some.1 h4]; rfl))
  have e5 : parseDigits1 (r4 ++ after) = some ([] ++ after) :=
    parseDigits1_append after h5 (Or.inr ha)
  rw [Option.bind_eq_some]
  refine ⟨r1 ++ after, e1, ?_⟩
  rw [Option.bind_eq_some]
  refine ⟨r2 ++ after, parseLit_append after h2, ?_⟩
  rw [Option.bind_eq_some]
  refine ⟨r3 ++ after, e3, ?_⟩
  rw [Option.bind_eq_some]
  refine ⟨r4 ++ after, parseLit_append after h4, ?_⟩
  rw [e5, List.nil_append]

theorem tailWsMatch_hashHead (X : List Char) : tailWsMatch ('#' :: X) = none := by
  have h : isWs '#' = false := by decide
  simp [tailWsMatch, h]

theorem tailWsMatch_some_shape :
    ∀ {cs : List Char} {k : Nat}, tailWsMatch cs = some k →
      cs.drop k = [] ∨ ∃ t, cs.drop k = '\n' :: t ∧ tailWsMatch t = none
  | [], k, h => by
    unfold tailWsMatch at h
    injection h with h
    rw [← h]
    exact Or.inl rfl
  | c :: rest, k, h => by
    unfold tailWsMatch at h
    by_cases hw : isWs c
    · rw [if_pos hw] at h
      rcases hd : tailWsMatch rest with _ | k'
      · rw [hd] at h
        by_cases hc : c == '\n'
        · rw [if_pos hc] at h
          injection h with h
          rw [← h, List.drop_zero]
          exact Or.inr ⟨rest, by rw [(beq_iff_eq.1 hc : c = '\n')], hd⟩
        · rw [if_neg hc] at h
          cases h
      · rw [hd] at h
        injection h with h
        rw [← h, List.drop_succ_cons]
        exact tailWsMatch_some_shape hd
    · rw [if_neg hw] at h
      cases h

theorem tailWsMatch_of_shape {after : List Char}
    (ha : after = [] ∨ ∃ t, after = '\n' :: t ∧ tailWsMatch t = none) :
    tailWsMatch after = some 0 := by
  rcases ha with rfl | ⟨t, rfl, ht⟩
  · rfl
  · have hw : isWs '\n' = true := by decide
    have hc : ('\n' == '\n') = true := by decide
    simp [tailWsMatch, hw, ht, hc]

theorem tailWsMatch_nlHash (X : List Char) : tailWsMatch ('\n' :: '#' :: X) = some 0 := by
  have hw : isWs '\n' = true := by decide
  have hc : ('\n' == '\n') = true := by decide
  unfold tailWsMatch
  rw [if_pos hw, tailWsMatch_hashHead, if_pos hc]

theorem tailWsMatch_local :
    ∀ (C X : List Char),
      tailWsMatch (C ++ '\n' :: '#' :: X) = tailWsMatch (C ++ ['\n', '#'])
  | [], X => by
    rw [List.nil_append, List.nil_append, tailWsMatch_nlHash, tailWsMatch_nlHash]
  | c :: C, X => by
    simp only [List.cons_append]
    unfold tailWsMatch
    rw [tailWsMatch_local C X]

theorem tailWsMatch_le :
    ∀ (C : List Char) {X : List Char} {k : Nat},
      tailWsMatch (C ++ '\n' :: '#' :: X) = some k → k ≤ C.length
  | [], X, k, h => by
    rw [List.nil_append, tailWsMatch_nlHash] at h
    injection h with h
    rw [← h]
    exact Nat.le_refl 0
  | c :: C, X, k, h => by
    rw [List.cons_append] at h
    unfold tailWsMatch at h
    by_cases hw : isWs c
    · rw [if_pos hw] at h
      rcases hd : tailWsMatch (C ++ '\n' :: '#' :: X) with _ | k'
      · rw [hd] at h
        by_cases hc : c == '\n'
        · rw [if_pos hc] at h
          injection h with h
          rw [← h]
          exact Nat.zero_le _
        · rw [if_neg hc] at h
          cases h
      · rw [hd] at h
        injection h with h
        rw [← h, List.length_cons]
        exact Nat.succ_le_succ (tailWsMatch_le C hd)
    · rw [if_neg hw] at h
      cases h

theorem latestLit_cons : "### Latest:".toList = '#' :: "## Latest:".toList := by
  decide

/-- A successful readme match starts with `#` and leaves a remainder that is
empty or a newline followed by text where the `\s*$` tail cannot match. -/
theorem matchLatest_eq_some {cs after : List Char} (h : matchLatest cs = some after) :
    (∃ t, cs = '#' :: t) ∧
    (after = [] ∨ ∃ t, after = '\n' :: t ∧ tailWsMatch t = none) := by
  unfold matchLatest at h
  rw [Option.bind_eq_some] at h
  obtain ⟨r1, h1, h⟩ := h
  rw [Option.bind_eq_some] at h
  obtain ⟨r3, h3, h⟩ := h
  rw [Option.bind_eq_some] at h
  obtain ⟨r4, h4, h5⟩ := h
  constructor
  · rw [parseLit_eq_some.1 h1, latestLit_cons, List.cons_append]
    exact ⟨_, rfl⟩
  · rw [Option.map_eq_some'] at h5
    obtain ⟨k, hk, hafter⟩ := h5
    rw [← hafter]
    exact tailWsMatch_some_shape hk

/-- The readme matcher accepts the replacement text followed by a remainder of
the shape a successful match leaves, consuming exactly the replacement. -/
theorem matchLatest_repl {v after : List Char} (hv : isTriple v = true)
    (ha : after = [] ∨ ∃ t, after = '\n' :: t ∧ tailWsMatch t = none) :
    matchLatest (replLatest v ++ after) = some after := by
  have hv' : parseTriple v = some [] := by
    unfold isTriple at hv
    exact beq_iff_eq.1 hv
  have hlit : "### Latest: v".toList = "### Latest:".toList ++ (' ' :: ['v']) := by
    decide
  unfold matchLatest replLatest
  rw [hlit, List.append_assoc, List.append_assoc]
  rw [Option.bind_eq_some]
  refine ⟨' ' :: ('v' :: (v ++ after)), parseLit_eq_some.2 rfl, ?_⟩
  have hdw : (' ' :: ('v' :: (v ++ after))).dropWhile isWs = 'v' :: (v ++ after) := by
    simp [List.dropWhile_cons, (by decide : isWs ' ' = true),
      (by decide : isWs 'v' = false)]
  rw [hdw, Option.bind_eq_some]
  refine ⟨v ++ after, parseLit_eq_some.2 rfl, ?_⟩
  rw [Option.bind_eq_some]
  refine ⟨after, parseTriple_append after hv'
    (by rcases ha with rfl | ⟨t, rfl, _⟩
        · exact Or.inl rfl
        · exact Or.inr ⟨t, rfl⟩), ?_⟩
  rw [tailWsMatch_of_shape ha]
  rw [Option.map_some', List.drop_zero]

/-- No readme match can start at a newline. -/
theorem matchLatest_nl (t : List Char) : matchLatest ('\n' :: t) = none := by
  unfold matchLatest
  have hlit : parseLit "### Latest:".toList ('\n' :: t) = none := by
    unfold parseLit
    rw [if_neg]
    intro hp
    rw [List.isPrefixOf_iff_prefix] at hp
    obtain ⟨s, hs⟩ := hp
    rw [latestLit_cons, List.cons_append] at hs
    injection hs with hs
    cases hs
  rw [hlit]
  rfl

/-! ### Locality: the readme matcher never reads past a `"\n#"` pair, so the
text after the first `#` of such a pair never affects the outcome. -/

theorem parseLit_local {pat : List Char} (hn : '\n' ∉ pat) (A X X' : List Char) :
    (parseLit pat (A ++ '\n' :: '#' :: X) = none ∧
      parseLit pat (A ++ '\n' :: '#' :: X') = none) ∨
    ∃ B, parseLit pat (A ++ '\n' :: '#' :: X) = some (B ++ '\n' :: '#' :: X) ∧
      parseLit pat (A ++ '\n' :: '#' :: X') = some (B ++ '\n' :: '#' :: X') := by
  by_cases hle : pat.length ≤ A.length
  · by_cases hpre : pat <+: A
    · right
      obtain ⟨t, rfl⟩ := hpre
      refine ⟨t, ?_, ?_⟩ <;>
      · rw [parseLit_eq_some, List.append_assoc]
    · left
      constructor <;>
      · unfold parseLit
        rw [if_neg]
        intro hp
        rw [List.isPrefixOf_iff_prefix] at hp
        apply hpre
        have hta := List.prefix_iff_eq_take.mp hp
        rw [List.take_append_of_le_length hle] at hta
        rw [List.prefix_iff_eq_take]
        exact hta
  · left
    have hlt : A.length < pat.length := Nat.lt_of_not_le hle
    constructor <;>
    · unfold parseLit
      rw [if_neg]
      intro hp
      rw [List.isPrefixOf_iff_prefix] at hp
      apply hn
      have hta := List.prefix_iff_eq_take.mp hp
      rw [List.take_append_eq_append_take,
        List.take_of_length_le (Nat.le_of_lt hlt)] at hta
      rw [hta]
      refine List.mem_append_right _ ?_
      rcases hd : pat.length - A.length with _ | m
      · omega
      · rw [List.take_succ_cons]
        exact List.mem_cons_self _ _

theorem parseDigits1_local (A X X' : List Char) :
    (parseDigits1 (A ++ '\n' :: '#' :: X) = none ∧
      parseDigits1 (A ++ '\n' :: '#' :: X') = none) ∨
    ∃ B, parseDigits1 (A ++ '\n' :: '#' :: X) = some (B ++ '\n' :: '#' :: X) ∧
      parseDigits1 (A ++ '\n' :: '#' :: X') = some (B ++ '\n' :: '#' :: X') := by
  rcases A with _ | ⟨a, A'⟩
  · left
    constructor <;>
    · rw [List.nil_append]
      simp [parseDigits1, (by decide : isDigit '\n' = false)]
  · simp only [List.cons_append, parseDigits1]
    by_cases ha : isDigit a
    · right
      refine ⟨A'.dropWhile isDigit, ?_, ?_⟩ <;>
      · rw [if_pos ha, dropWhile_append_cons A' _ (by decide : isDigit '\n' = false)]
    · left
      rw [if_neg ha, if_neg ha]
      exact ⟨rfl, rfl⟩

theorem parseTriple_local (A X X' : List Char) :
    (parseTriple (A ++ '\n' :: '#' :: X) = none ∧
      parseTriple (A ++ '\n' :: '#' :: X') = none) ∨
    ∃ B, parseTriple (A ++ '\n' :: '#' :: X) = some (B ++ '\n' :: '#' :: X) ∧
      parseTriple (A ++ '\n' :: '#' :: X') = some (B ++ '\n' :: '#' :: X') := by
  unfold parseTriple
  rcases parseDigits1_local A X X' with ⟨e1, e1'⟩ | ⟨B1, e1, e1'⟩
  · left
    rw [e1, e1']
    exact ⟨rfl, rfl⟩
  · rw [e1, e1']
    simp only [Option.some_bind]
    rcases parseLit_local (by decide : '\n' ∉ ['.']) B1 X X' with ⟨e2, e2'⟩ | ⟨B2, e2, e2'⟩
    · left
      rw [e2, e2']
      exact ⟨rfl, rfl⟩
    · rw [e2, e2']
      simp only [Option.some_bind]
      rcases parseDigits1_local B2 X X' with ⟨e3, e3'⟩ | ⟨B3, e3, e3'⟩
      · left
        rw [e3, e3']
        exact ⟨rfl, rfl⟩
      · rw [e3, e3']
        simp only [Option.some_bind]
        rcases parseLit_local (by decide : '\n' ∉ ['.']) B3 X X' with ⟨e4, e4'⟩ | ⟨B4, e4, e4'⟩
        · left
          rw [e4, e4']
          exact ⟨rfl, rfl⟩
        · rw [e4, e4']
          simp only [Option.some_bind]
          exact parseDigits1_local B4 X X'

theorem matchLatest_local (A X X' : List Char) :
    (matchLatest (A ++ '\n' :: '#' :: X) = none ∧
      matchLatest (A ++ '\n' :: '#' :: X') = none) ∨
    ∃ B, matchLatest (A ++ '\n' :: '#' :: X) = some (B ++ '\n' :: '#' :: X) ∧
      matchLatest (A ++ '\n' :: '#' :: X') = some (B ++ '\n' :: '#' :: X') := by
  unfold matchLatest
  rcases parseLit_local (by decide : '\n' ∉ "### Latest:".toList) A X X'
    with ⟨e1, e1'⟩ | ⟨B1, e1, e1'⟩
  · left
    rw [e1, e1']
    exact ⟨rfl, rfl⟩
  · rw [e1, e1']
    simp only [Option.some_bind]
    by_cases hemp : (B1.dropWhile isWs).isEmpty
    · have hdw : ∀ Y : List Char,
          (B1 ++ '\n' :: '#' :: Y).dropWhile isWs = '#' :: Y := by
        intro Y
        rw [List.dropWhile_append, if_pos hemp]
        simp [List.dropWhile_cons, (by decide : isWs '\n' = true),
          (by decide : isWs '#' = false)]
      have hv : ∀ Y : List Char, parseLit ['v'] ('#' :: Y) = none := by
        intro Y
        unfold parseLit
        rw [if_neg]
        intro hp
        rw [List.isPrefixOf_iff_prefix] at hp
        obtain ⟨s, hs⟩ := hp
        rw [List.cons_append] at hs
        injection hs with hs
        cases hs
      rw [hdw X, hdw X', hv X, hv X']
      left
      exact ⟨rfl, rfl⟩
    · have hdw : ∀ Y : List Char, (B1 ++ '\n' :: '#' :: Y).dropWhile isWs
          = B1.dropWhile isWs ++ '\n' :: '#' :: Y := by
        intro Y
        rw [List.dropWhile_append, if_neg hemp]
      rw [hdw X, hdw X']
      rcases parseLit_local (by decide : '\n' ∉ ['v']) (B1.dropWhile isWs) X X'
        with ⟨e2, e2'⟩ | ⟨B2, e2, e2'⟩
      · left
        rw [e2, e2']
        exact ⟨rfl, rfl⟩
      · rw [e2, e2']
        simp only [Option.some_bind]
        rcases parseTriple_local B2 X X' with ⟨e3, e3'⟩ | ⟨B3, e3, e3'⟩
        · left
          rw [e3, e3']
          exact ⟨rfl, rfl⟩
        · rw [e3, e3']
          simp only [Option.some_bind]
          have et : tailWsMatch (B3 ++ '\n' :: '#' :: X)
              = tailWsMatch (B3 ++ '\n' :: '#' :: X') := by
            rw [tailWsMatch_local B3 X, tailWsMatch_local B3 X']
          rcases hk : tailWsMatch (B3 ++ '\n' :: '#' :: X) with _ | k
          · left
            refine ⟨rfl, ?_⟩
            rw [← et, hk]
            rfl
          · right
            have hk' : tailWsMatch (B3 ++ '\n' :: '#' :: X') = some k := by
              rw [← et, hk]
            have hkle := tailWsMatch_le B3 hk
            refine ⟨B3.drop k, ?_, ?_⟩
            · rw [Option.map_some', List.drop_append_of_le_length hkle]
            · rw [hk', Option.map_some', List.drop_append_of_le_length hkle]

/-- The `count=1` scan changes the text only from a line start whose line
begins with `#` onwards (and the new text also has `#` there): before the
first match nothing is touched, and matches only happen at line starts on
lines beginning like the pattern. -/
theorem sub1_shape (M : List Char → Option (List Char)) (repl : List Char)
    (hM : ∀ ds after, M ds = some after → ∃ t, ds = '#' :: t)
    (hR : ∃ t, repl = '#' :: t) :
    ∀ (flag : Bool) (cs : List Char),
      (sub1 M repl flag cs).1 = cs ∨
      (flag = true ∧ ∃ X X', cs = '#' :: X ∧ (sub1 M repl flag cs).1 = '#' :: X') ∨
      (∃ P X X', cs = P ++ '\n' :: '#' :: X ∧
        (sub1 M repl flag cs).1 = P ++ '\n' :: '#' :: X')
  | _, [] => Or.inl rfl
  | flag, c :: rest => by
    cases hf : flag with
    | true =>
      rcases hm : M (c :: rest) with _ | after
      · have ih := sub1_shape M repl hM hR (c == '\n') rest
        have hs : (sub1 M repl true (c :: rest)).1
            = c :: (sub1 M repl (c == '\n') rest).1 := by
          simp [sub1, hm]
        rcases ih with ih | ⟨hfl, X, X', hX, hX'⟩ | ⟨P, X, X', hX, hX'⟩
        · left
          rw [hs, ih]
        · right; right
          have hc : c = '\n' := beq_iff_eq.1 hfl
          refine ⟨[], X, X', ?_, ?_⟩
          · rw [hc, hX]
            rfl
          · rw [hs, hX', hc]
            rfl
        · right; right
          refine ⟨c :: P, X, X', ?_, ?_⟩
          · rw [hX]
            rfl
          · rw [hs, hX']
            rfl
      · right; left
        obtain ⟨t, ht⟩ := hM _ _ hm
        obtain ⟨tr, htr⟩ := hR
        have hs : (sub1 M repl true (c :: rest)).1 = repl ++ after := by
          simp [sub1, hm]
        exact ⟨rfl, t, tr ++ after, ht, by rw [hs, htr]; rfl⟩
    | false =>
      have ih := sub1_shape M repl hM hR (c == '\n') rest
      have hs : (sub1 M repl false (c :: rest)).1
          = c :: (sub1 M repl (c == '\n') rest).1 := by
        simp [sub1]
      rcases ih with ih | ⟨hfl, X, X', hX, hX'⟩ | ⟨P, X, X', hX, hX'⟩
      · left
        rw [hs, ih]
      · right; right
        have hc : c = '\n' := beq_iff_eq.1 hfl
        refine ⟨[], X, X', ?_, ?_⟩
        · rw [hc, hX]
          rfl
        · rw [hs, hX', hc]
          rfl
      · right; right
        refine ⟨c :: P, X, X', ?_, ?_⟩
        · rw [hX]
          rfl
        · rw [hs, hX']
          rfl

theorem replLatest_cons (v : List Char) :
    replLatest v = '#' :: ("## Latest: v".toList ++ v) := by
  rw [replLatest, (by decide : "### Latest: v".toList
    = '#' :: "## Latest: v".toList)]
  rfl

/-- Applying the readme substitution to its own output reproduces that output
(for three-component versions): the scan finds the replacement line again and
replaces it by itself. -/
theorem sub1_latest_idem (v : List Char) (hv : isTriple v = true) :
    ∀ (flag : Bool) (cs : List Char),
      (sub1 matchLatest (replLatest v) flag
        ((sub1 matchLatest (replLatest v) flag cs).1)).1
      = (sub1 matchLatest (replLatest v) flag cs).1
  | _, [] => by simp [sub1]
  | flag, c :: rest => by
    cases hf : flag with
    | false =>
      have hs : (sub1 matchLatest (replLatest v) false (c :: rest)).1
          = c :: (sub1 matchLatest (replLatest v) (c == '\n') rest).1 := by
        simp [sub1]
      rw [hs]
      have hs2 : (sub1 matchLatest (replLatest v) false
          (c :: (sub1 matchLatest (replLatest v) (c == '\n') rest).1)).1
          = c :: (sub1 matchLatest (replLatest v) (c == '\n')
              ((sub1 matchLatest (replLatest v) (c == '\n') rest).1)).1 := by
        simp [sub1]
      rw [hs2, sub1_latest_idem v hv (c == '\n') rest]
    | true =>
      rcases hm : matchLatest (c :: rest) with _ | after
      · have hs : (sub1 matchLatest (replLatest v) true (c :: rest)).1
            = c :: (sub1 matchLatest (replLatest v) (c == '\n') rest).1 := by
          simp [sub1, hm]
        rw [hs]
        have hout := sub1_shape matchLatest (replLatest v)
          (fun _ _ h => (matchLatest_eq_some h).1)
          ⟨_, replLatest_cons v⟩ (c == '\n') rest
        have hnm : matchLatest
            (c :: (sub1 matchLatest (replLatest v) (c == '\n') rest).1) = none := by
          rcases hout with hout | ⟨hfl, X, X', hX, hX'⟩ | ⟨P, X, X', hX, hX'⟩
          · rw [hout]
            exact hm
          · have hc : c = '\n' := beq_iff_eq.1 hfl
            rw [hX', hc]
            exact matchLatest_nl _
          · have h1 : matchLatest ((c :: P) ++ '\n' :: '#' :: X) = none := by
              rw [List.cons_append, ← hX]
              exact hm
            rcases matchLatest_local (c :: P) X X' with ⟨_, e'⟩ | ⟨B, e, _⟩
            · rw [hX', ← List.cons_append]
              exact e'
            · rw [h1] at e
              cases e
        have hs2 : (sub1 matchLatest (replLatest v) true
            (c :: (sub1 matchLatest (replLatest v) (c == '\n') rest).1)).1
            = c :: (sub1 matchLatest (replLatest v) (c == '\n')
                ((sub1 matchLatest (replLatest v) (c == '\n') rest).1)).1 := by
          simp [sub1, hnm]
        rw [hs2, sub1_latest_idem v hv (c == '\n') rest]
      · have hs : (sub1 matchLatest (replLatest v) true (c :: rest)).1
            = replLatest v ++ after := by
          simp [sub1, hm]
        rw [hs]
        have hmr : matchLatest (replLatest v ++ after) = some after :=
          matchLatest_repl hv (matchLatest_eq_some hm).2
        have h2 : replLatest v ++ after
            = '#' :: ("## Latest: v".toList ++ v ++ after) := by
          rw [replLatest_cons]
          simp [List.append_assoc]
        have hm2 : matchLatest
            ('#' :: ("## Latest: v".toList ++ v ++ after)) = some after := by
          rw [← h2]
          exact hmr
        rw [h2]
        have hs2 : sub1 matchLatest (replLatest v) true
            ('#' :: ("## Latest: v".toList ++ v ++ after))
            = (replLatest v ++ after, true) := by
          rw [show sub1 matchLatest (replLatest v) true
              ('#' :: ("## Latest: v".toList ++ v ++ after))
              = match matchLatest ('#' :: ("## Latest: v".toList ++ v ++ after)) with
                | some a => (replLatest v ++ a, true)
                | none => ('#' :: (sub1 matchLatest (replLatest v)
                    (('#' : Char) == '\n') ("## Latest: v".toList ++ v ++ after)).1,
                    (sub1 matchLatest (replLatest v) (('#' : Char) == '\n')
                      ("## Latest: v".toList ++ v ++ after)).2)
            from rfl, hm2]
        rw [hs2, h2]

/-- C10 (amended): for a three-component version `v`, the text component of
`replace_latest_readme` is idempotent — a second application returns its own
output unchanged. -/
theorem C10_latest_idem (text v : List Char) (hv : isTriple v = true) :
    (replace_latest_readme (replace_latest_readme text v).2.1 v).2.1
      = (replace_latest_readme text v).2.1 := by
  unfold replace_latest_readme
  exact sub1_latest_idem v hv true text

/-- Witness for C10 at a concrete input where a replacement happens. -/
theorem C10_latest_idem_witness :
    (replace_latest_readme (replace_latest_readme
        "### Latest: v1.2.3\n\nbody\n".toList "9.9.9".toList).2.1
        "9.9.9".toList).2.1
      = (replace_latest_readme "### Latest: v1.2.3\n\nbody\n".toList
          "9.9.9".toList).2.1 :=
  C10_latest_idem _ _ (by decide)

/-- C10 counterexample to the claim as stated (every version string): with the
non-numeric version `bad`, the replacement line no longer matches the pattern,
so a second application rewrites the next matching line and changes the
text. -/
theorem C10_counterexample :
    ¬ ((replace_latest_readme (replace_latest_readme
        "### Latest: v1.1.1\n### Latest: v2.2.2\n".toList "bad".toList).2.1
        "bad".toList).2.1
      = (replace_latest_readme
          "### Latest: v1.1.1\n### Latest: v2.2.2\n".toList "bad".toList).2.1) := by
  decide

/-! ### Changelog lemmas (C2, C9) -/

theorem takeWhile_append_of_head_neg {p : Char → Bool} :
    ∀ (w : List Char) {c : Char} (t : List Char),
      (∀ x ∈ w, p x = true) → p c = false →
      (w ++ c :: t).takeWhile p = w
  | [], c, t, _, hc => by simp [List.takeWhile_cons, hc]
  | a :: w, c, t, hw, hc => by
    have ha : p a = true := hw a (List.mem_cons_self a w)
    simp only [List.cons_append, List.takeWhile_cons, ha, if_true]
    rw [takeWhile_append_of_head_neg w t (fun x hx => hw x (List.mem_cons_of_mem a hx)) hc]

theorem dropWhile_append_of_all {p : Char → Bool} (w : List Char) {c : Char}
    (t : List Char) (hw : ∀ x ∈ w, p x = true) (hc : p c = false) :
    (w ++ c :: t).dropWhile p = c :: t := by
  rw [dropWhile_append_cons w t hc, List.dropWhile_eq_nil_iff.2 hw, List.nil_append]

theorem spanWs1_some_decomp {cs w r : List Char} (h : spanWs1 cs = some (w, r)) :
    cs = w ++ r ∧ w ≠ [] ∧ (∀ c ∈ w, isWs c = true) := by
  rcases cs with _ | ⟨c, t⟩
  · cases h
  · simp only [spanWs1] at h
    by_cases hc : isWs c
    · rw [if_pos hc] at h
      injection h with h
      injection h with h1 h2
      refine ⟨?_, ?_, ?_⟩
      · rw [← h1, ← h2]
        exact (List.takeWhile_append_dropWhile isWs (c :: t)).symm
      · rw [← h1]
        simp [List.takeWhile_cons, hc]
      · intro x hx
        rw [← h1] at hx
        exact List.mem_takeWhile_imp hx
    · rw [if_neg hc] at h
      cases h

theorem spanWs1_build {w : List Char} {c : Char} {t : List Char}
    (hw : ∀ x ∈ w, isWs x = true) (hwne : w ≠ []) (hc : isWs c = false) :
    spanWs1 (w ++ c :: t) = some (w, c :: t) := by
  rcases w with _ | ⟨a, w'⟩
  · exact absurd rfl hwne
  · have ha : isWs a = true := hw a (List.mem_cons_self a w')
    simp only [List.cons_append, spanWs1, ha, if_true]
    rw [← List.cons_append,
      takeWhile_append_of_head_neg (a :: w') t hw hc,
      dropWhile_append_of_all (a :: w') t hw hc]

/-- Characterisation of one duplicate-heading pattern attempt (for versions
with a non-whitespace first character). -/
theorem matchDupHeading_isSome_iff {V cs : List Char} (hV : V ≠ [])
    (hVh : ∀ c, V.head? = some c → isWs c = false) :
    (matchDupHeading V cs).isSome = true ↔
      ∃ w rest, cs = '#' :: '#' :: (w ++ (V ++ rest)) ∧ w ≠ [] ∧
        (∀ c ∈ w, isWs c = true) ∧
        atBoundary ((V.getLast?).getD ' ') rest.head? = true := by
  constructor
  · intro h
    rw [Option.isSome_iff_exists] at h
    obtain ⟨r2, h⟩ := h
    unfold matchDupHeading at h
    rw [Option.bind_eq_some] at h
    obtain ⟨r1, h1, h⟩ := h
    rw [Option.bind_eq_some] at h
    obtain ⟨⟨w, r2'⟩, hspan, h⟩ := h
    rw [Option.bind_eq_some] at h
    obtain ⟨r3, h3, h4⟩ := h
    obtain ⟨hsplit, hwne, hws⟩ := spanWs1_some_decomp hspan
    have h3' : r2' = V ++ r3 := parseLit_eq_some.1 h3
    have hb : atBoundary ((V.getLast?).getD (w.getLastD ' ')) r3.head? = true := by
      by_cases hbb : atBoundary ((V.getLast?).getD (w.getLastD ' ')) r3.head? = true
      · exact hbb
      · rw [if_neg hbb] at h4
        cases h4
    refine ⟨w, r3, ?_, hwne, hws, ?_⟩
    · rw [parseLit_eq_some.1 h1, hsplit, h3']
      rfl
    · obtain ⟨vlast, hlast⟩ : ∃ vlast, V.getLast? = some vlast :=
        ⟨V.getLast hV, List.getLast?_eq_getLast V hV⟩
      rw [hlast] at hb ⊢
      exact hb
  · rintro ⟨w, rest, rfl, hwne, hws, hb⟩
    obtain ⟨vh, V', hVd⟩ := List.exists_cons_of_ne_nil hV
    have hvh : isWs vh = false := hVh vh (by rw [hVd]; rfl)
    unfold matchDupHeading
    have h1 : parseLit "##".toList ('#' :: '#' :: (w ++ (V ++ rest)))
        = some (w ++ (V ++ rest)) := parseLit_eq_some.2 rfl
    rw [h1, Option.some_bind]
    have h2 : spanWs1 (w ++ (V ++ rest)) = some (w, V ++ rest) := by
      rw [hVd, List.cons_append]
      exact spanWs1_build hws hwne hvh
    rw [h2, Option.some_bind]
    have h3 : parseLit V (V ++ rest) = some rest := parseLit_eq_some.2 rfl
    rw [h3, Option.some_bind]
    have hprev : (V.getLast?).getD ((w, V ++ rest).1.getLastD ' ')
        = (V.getLast?).getD ' ' := by
      rw [List.getLast?_eq_getLast V hV]
      rfl
    rw [hprev, if_pos hb]
    rfl

/-- `re.search` correctness for the duplicate-heading scan: it reports a
match iff some line-start position matches. -/
theorem hasDupHeading_iff (V : List Char) :
    ∀ (cs : List Char) (flag : Bool),
      hasDupHeading V flag cs = true ↔
        ∃ i, i ≤ cs.length ∧ lineStartAt cs flag i = true ∧
          (matchDupHeading V (cs.drop i)).isSome = true
  | [], flag => by
    constructor
    · intro h
      simp [hasDupHeading] at h
    · rintro ⟨i, hi, hls, hm⟩
      rw [List.drop_nil] at hm
      have : matchDupHeading V [] = none := rfl
      rw [this] at hm
      cases hm
  | c :: rest, flag => by
    unfold hasDupHeading
    constructor
    · intro h
      rw [Bool.or_eq_true] at h
      rcases h with h | h
      · rw [Bool.and_eq_true] at h
        exact ⟨0, Nat.zero_le _, by simpa [lineStartAt] using h.1, by simpa using h.2⟩
      · obtain ⟨i, hi, hls, hm⟩ := (hasDupHeading_iff V rest (c == '\n')).1 h
        refine ⟨i + 1, by simp only [List.length_cons]; omega, ?_,
          by simpa [List.drop_succ_cons] using hm⟩
        cases i with
        | zero =>
          simp only [lineStartAt] at hls ⊢
          simp only [List.getElem?_cons_zero]
          simp only [beq_iff_eq] at hls
          simp [hls]
        | succ j =>
          simp only [lineStartAt, List.getElem?_cons_succ] at hls ⊢
          exact hls
    · rintro ⟨i, hi, hls, hm⟩
      rw [Bool.or_eq_true]
      cases i with
      | zero =>
        left
        rw [Bool.and_eq_true]
        simp only [lineStartAt] at hls
        exact ⟨hls, by simpa using hm⟩
      | succ j =>
        right
        refine (hasDupHeading_iff V rest (c == '\n')).2 ⟨j, ?_, ?_, ?_⟩
        · simp only [List.length_cons] at hi
          omega
        · cases j with
          | zero =>
            simp only [lineStartAt, List.getElem?_cons_zero] at hls ⊢
            simp only [beq_iff_eq] at hls ⊢
            exact Option.some.inj hls
          | succ j' =>
            simp only [lineStartAt, List.getElem?_cons_succ] at hls ⊢
            exact hls
        · rw [List.drop_succ_cons] at hm
          exact hm

/-- C9 (amended): the duplicate guard of `insert_changelog` fires iff the
multiline pattern `^##\s+V\b` matches at some line start, where the `\s+`
may span newlines; the `\b` means a heading for a longer version with `V` as
a numeric prefix does not fire the guard, as the second conjunct shows on
`## 0.0.91` with V = `0.0.9`. -/
theorem C9_dup_guard (text V : List Char) (notes : List (List Char))
    (hV : V ≠ []) (hVh : ∀ c, V.head? = some c → isWs c = false) :
    (insert_changelog text V notes = none ↔
      ∃ i, i ≤ text.length ∧ lineStartAt text true i = true ∧
        ∃ w rest, text.drop i = '#' :: '#' :: (w ++ (V ++ rest)) ∧ w ≠ [] ∧
          (∀ c ∈ w, isWs c = true) ∧
          atBoundary ((V.getLast?).getD ' ') rest.head? = true) ∧
    (insert_changelog "x\n## 0.0.91\n".toList "0.0.9".toList
      ["n".toList]).isSome = true := by
  constructor
  · have hnone : insert_changelog text V notes = none ↔
        hasDupHeading V true text = true := by
      unfold insert_changelog
      by_cases hd : hasDupHeading V true text = true
      · simp [hd]
      · simp [hd]
    rw [hnone, hasDupHeading_iff V text true]
    constructor
    · rintro ⟨i, hi, hls, hm⟩
      exact ⟨i, hi, hls, (matchDupHeading_isSome_iff hV hVh).1 hm⟩
    · rintro ⟨i, hi, hls, hex⟩
      exact ⟨i, hi, hls, (matchDupHeading_isSome_iff hV hVh).2 hex⟩
  · decide

/-- Witness for C9 on a concrete changelog containing a real `## 0.0.9`
heading: the guard fires. -/
theorem C9_dup_guard_witness :
    insert_changelog "# CL\n## 0.0.9\n".toList "0.0.9".toList ["n".toList]
      = none := by
  have h := C9_dup_guard "# CL\n## 0.0.9\n".toList "0.0.9".toList ["n".toList]
    (by decide) (by decide)
  exact h.1.2 ⟨5, by decide, by decide,
    [' '], ['\n'], by decide, by decide, by decide, by decide⟩

/-- C9 counterexample to the claim as stated: in `"##\n0.0.9"` no LINE starts
with `##`, whitespace, then the version, yet the guard fires because the
regex `\s+` crosses the newline; the claimed iff fails. -/
theorem C9_counterexample :
    (∀ i, i ≤ ("##\n0.0.9".toList).length →
      lineStartAt "##\n0.0.9".toList true i = true →
      lineDupAt "0.0.9".toList (("##\n0.0.9".toList).drop i) = false) ∧
    insert_changelog "##\n0.0.9".toList "0.0.9".toList ["n".toList] = none := by
  decide

theorem findNlHeading_some :
    ∀ {cs : List Char} {i : Nat}, findNlHeading cs = some i →
      nlHeadingAt (cs.drop i) = true ∧ ∀ j, j < i → nlHeadingAt (cs.drop j) = false
  | [], i, h => by cases h
  | c :: rest, i, h => by
    unfold findNlHeading at h
    by_cases hat : nlHeadingAt (c :: rest) = true
    · rw [if_pos hat] at h
      injection h with h
      rw [← h]
      exact ⟨by simpa using hat, fun j hj => absurd hj (Nat.not_lt_zero j)⟩
    · rw [if_neg hat] at h
      rw [Option.map_eq_some'] at h
      obtain ⟨i', hi', rfl⟩ := h
      obtain ⟨h1, h2⟩ := findNlHeading_some hi'
      refine ⟨by simpa [List.drop_succ_cons] using h1, ?_⟩
      intro j hj
      cases j with
      | zero =>
        simpa using Bool.eq_false_iff.2 fun he => hat he
      | succ j' =>
        rw [List.drop_succ_cons]
        exact h2 j' (by omega)

theorem findNlHeading_none :
    ∀ {cs : List Char}, findNlHeading cs = none → ∀ j, nlHeadingAt (cs.drop j) = false
  | [], _, j => by
    rw [List.drop_nil]
    rfl
  | c :: rest, h, j => by
    unfold findNlHeading at h
    by_cases hat : nlHeadingAt (c :: rest) = true
    · rw [if_pos hat] at h
      cases h
    · rw [if_neg hat] at h
      cases j with
      | zero =>
        simpa using Bool.eq_false_iff.2 fun he => hat he
      | succ j' =>
        rw [List.drop_succ_cons]
        exact findNlHeading_none (Option.map_eq_none'.1 h) j'

/-- C2 (amended): when the duplicate guard passes and notes are non-empty,
`insert_changelog` succeeds; the new section is inserted exactly at the first
occurrence of a newline followed by `##` and a whitespace character (a
heading at the very start of the text, not preceded by a newline, does not
count), and is appended after the right-stripped text plus a final newline
when no such occurrence exists. -/
theorem C2_insert_position (text V : List Char) (notes : List (List Char))
    (hdup : hasDupHeading V true text = false) (_hnotes : notes ≠ []) :
    (∀ i, findNlHeading text = some i →
      nlHeadingAt (text.drop i) = true ∧
      (∀ j, j < i → nlHeadingAt (text.drop j) = false) ∧
      insert_changelog text V notes
        = some (text.take i ++ changelogSection V notes ++ text.drop i)) ∧
    (findNlHeading text = none →
      (∀ j, nlHeadingAt (text.drop j) = false) ∧
      insert_changelog text V notes
        = some (rstrip text ++ changelogSection V notes ++ ['\n'])) := by
  constructor
  · intro i hfind
    obtain ⟨h1, h2⟩ := findNlHeading_some hfind
    refine ⟨h1, h2, ?_⟩
    unfold insert_changelog
    rw [if_neg (by rw [hdup]; exact Bool.false_ne_true), hfind]
  · intro hfind
    refine ⟨findNlHeading_none hfind, ?_⟩
    unfold insert_changelog
    rw [if_neg (by rw [hdup]; exact Bool.false_ne_true), hfind]

/-- Witness for C2 at a concrete changelog: the section lands right before
the `\n## 0.0.8` heading, at index 12. -/
theorem C2_insert_position_witness :
    insert_changelog "# Changelog\n\n## 0.0.8\n- x\n".toList "0.0.9".toList
      ["Fix crash".toList]
      = some (("# Changelog\n\n## 0.0.8\n- x\n".toList).take 12 ++
          changelogSection "0.0.9".toList ["Fix crash".toList] ++
          ("# Changelog\n\n## 0.0.8\n- x\n".toList).drop 12) := by
  have h := C2_insert_position "# Changelog\n\n## 0.0.8\n- x\n".toList
    "0.0.9".toList ["Fix crash".toList] (by decide) (by decide)
  exact (h.1 12 (by decide)).2.2

/-- C2 counterexample to the claim as stated: when the only version heading
sits at the very start of the text, the insertion regex `\n##\s` does not see
it, and the new section is appended AFTER it instead of before it — the
output still begins with the old heading. -/
theorem C2_counterexample :
    insert_changelog "## 0.0.1\n- a\n".toList "0.0.2".toList ["n".toList]
      = some "## 0.0.1\n- a\n## 0.0.2\n\n- n\n\n".toList ∧
    "## 0.0.1".toList.isPrefixOf "## 0.0.1\n- a\n## 0.0.2\n\n- n\n\n".toList
      = true := by
  decide

/-! ### Publishing-checklist lemmas (C8) -/

/-- `re.subn` count correctness for a `(?m)^` pattern that cannot match empty
text: the scan's changed-flag is set iff some line start matches. -/
theorem sub1_found_iff (M : List Char → Option (List Char)) (repl : List Char)
    (hM0 : M [] = none) :
    ∀ (cs : List Char) (flag : Bool),
      (sub1 M repl flag cs).2 = true ↔
        ∃ i, i ≤ cs.length ∧ lineStartAt cs flag i = true ∧
          (M (cs.drop i)).isSome = true
  | [], flag => by
    constructor
    · intro h
      simp [sub1] at h
    · rintro ⟨i, _, _, hm⟩
      rw [List.drop_nil, hM0] at hm
      cases hm
  | c :: rest, flag => by
    cases flag with
    | false =>
      have e : (sub1 M repl false (c :: rest)).2
          = (sub1 M repl (c == '\n') rest).2 := rfl
      rw [e, sub1_found_iff M repl hM0 rest (c == '\n')]
      constructor
      · rintro ⟨i, hi, hls, hm⟩
        refine ⟨i + 1, by simp only [List.length_cons]; omega, ?_,
          by simpa [List.drop_succ_cons] using hm⟩
        cases i with
        | zero =>
          simp only [lineStartAt, List.getElem?_cons_zero] at hls ⊢
          simp only [beq_iff_eq] at hls ⊢
          rw [hls]
        | succ j =>
          simp only [lineStartAt, List.getElem?_cons_succ] at hls ⊢
          exact hls
      · rintro ⟨i, hi, hls, hm⟩
        cases i with
        | zero =>
          simp only [lineStartAt] at hls
          cases hls
        | succ j =>
          refine ⟨j, by simp only [List.length_cons] at hi; omega, ?_,
            by rw [List.drop_succ_cons] at hm; exact hm⟩
          cases j with
          | zero =>
            simp only [lineStartAt, List.getElem?_cons_zero] at hls ⊢
            simp only [beq_iff_eq] at hls ⊢
            exact Option.some.inj hls
          | succ j' =>
            simp only [lineStartAt, List.getElem?_cons_succ] at hls ⊢
            exact hls
    | true =>
      rcases hm : M (c :: rest) with _ | after
      · have e : (sub1 M repl true (c :: rest)).2
            = (sub1 M repl (c == '\n') rest).2 := by
          simp [sub1, hm]
        rw [e, sub1_found_iff M repl hM0 rest (c == '\n')]
        constructor
        · rintro ⟨i, hi, hls, hmi⟩
          refine ⟨i + 1, by simp only [List.length_cons]; omega, ?_,
            by simpa [List.drop_succ_cons] using hmi⟩
          cases i with
          | zero =>
            simp only [lineStartAt, List.getElem?_cons_zero] at hls ⊢
            simp only [beq_iff_eq] at hls ⊢
            rw [hls]
          | succ j =>
            simp only [lineStartAt, List.getElem?_cons_succ] at hls ⊢
            exact hls
        · rintro ⟨i, hi, hls, hmi⟩
          cases i with
          | zero =>
            rw [List.drop_zero, hm] at hmi
            cases hmi
          | succ j =>
            refine ⟨j, by simp only [List.length_cons] at hi; omega, ?_,
              by rw [List.drop_succ_cons] at hmi; exact hmi⟩
            cases j with
            | zero =>
              simp only [lineStartAt, List.getElem?_cons_zero] at hls ⊢
              simp only [beq_iff_eq] at hls ⊢
              exact Option.some.inj hls
            | succ j' =>
              simp only [lineStartAt, List.getElem?_cons_succ] at hls ⊢
              exact hls
      · have e : (sub1 M repl true (c :: rest)).2 = true := by
          simp [sub1, hm]
        rw [e]
        simp only [true_iff]
        exact ⟨0, Nat.zero_le _, rfl, by rw [List.drop_zero, hm]; rfl⟩

/-- C8 (amended): `update_publishing` is total (no fatal path), returns the
original text first, and its warning list holds exactly one entry per pattern
that found no match in the text that substitution scanned — the first pattern
scans the input, the second scans the first substitution's output, the third
the second's. -/
theorem C8_publishing_warnings (text v : List Char) :
    (update_publishing text v).1 = text ∧
    (update_publishing text v).2.2 =
      (if occursAt matchPubVersion text = true then [] else [pubWarn1]) ++
      (if occursAt matchPubHeader
          (sub1 matchPubVersion (pubRepl1 v) true text).1 = true then []
        else [pubWarn2]) ++
      (if occursAt matchPubTag
          (sub1 matchPubHeader (pubRepl2 v) true
            (sub1 matchPubVersion (pubRepl1 v) true text).1).1 = true then []
        else [pubWarn3]) := by
  have flagEq : ∀ (M : List Char → Option (List Char)) (hM0 : M [] = none)
      (repl cs : List Char), (sub1 M repl true cs).2 = occursAt M cs := by
    intro M hM0 repl cs
    rcases hb : (sub1 M repl true cs).2 with _ | _
    · symm
      unfold occursAt
      rw [decide_eq_false_iff_not]
      intro hex
      have := (sub1_found_iff M repl hM0 cs true).2 (by
        obtain ⟨i, hi, hls, hm⟩ := hex
        exact ⟨i, hi, hls, hm⟩)
      rw [hb] at this
      cases this
    · symm
      unfold occursAt
      rw [decide_eq_true_eq]
      obtain ⟨i, hi, hls, hm⟩ := (sub1_found_iff M repl hM0 cs true).1 hb
      exact ⟨i, hi, hls, hm⟩
  refine ⟨rfl, ?_⟩
  show (if (sub1 matchPubVersion (pubRepl1 v) true text).2 then ([] : List (List Char))
      else [pubWarn1]) ++ _ ++ _ = _
  rw [flagEq matchPubVersion rfl (pubRepl1 v) text,
    flagEq matchPubHeader rfl (pubRepl2 v) _,
    flagEq matchPubTag rfl (pubRepl3 v) _]

/-- C8 counterexample to the claim as stated ("attempted independently",
warnings for "the three patterns that did not match"): with a version string
containing a newline, the first substitution manufactures a line matching the
second pattern, so no warning is emitted for it although the original text
contains no checklist header. -/
theorem C8_counterexample :
    occursAt matchPubHeader "- [x] `extension.toml` version: 0.0.8\n".toList
      = false ∧
    (update_publishing "- [x] `extension.toml` version: 0.0.8\n".toList
      "x\n## Release Checklist for v1.2.3".toList).2.2 = [pubWarn3] := by
  decide

/-! ### File-write invariants (C6) -/

/-- A guarded write preserves the run invariant: unmarked files hold their
original content, marked files differ from it; the new mark can only be this
step's path, and other paths are untouched. -/
theorem guardedWrite_inv {fs₀ : List Char → Option (List Char)}
    {st st' : (List Char → Option (List Char)) × List (List Char)}
    {path before after : List Char}
    (hInv1 : ∀ p, p ∉ st.2 → st.1 p = fs₀ p)
    (hInv2 : ∀ p, p ∈ st.2 → st.1 p ≠ fs₀ p)
    (hpath : path ∉ st.2) (hread : st.1 path = some before)
    (hst : (¬ before = after ∧ st' = (fsWrite st.1 path after, st.2 ++ [path]))
      ∨ st' = st) :
    (∀ p, p ∉ st'.2 → st'.1 p = fs₀ p) ∧
    (∀ p, p ∈ st'.2 → st'.1 p ≠ fs₀ p) ∧
    (∀ p, p ∈ st'.2 → p ∈ st.2 ∨ p = path) ∧
    (∀ p, p ≠ path → st'.1 p = st.1 p ∧ (p ∈ st'.2 ↔ p ∈ st.2)) := by
  rcases hst with ⟨hne, rfl⟩ | rfl
  · refine ⟨?_, ?_, ?_, ?_⟩
    · intro p hp
      have hp1 : p ∉ st.2 := fun hc => hp (List.mem_append_left _ hc)
      have hp2 : p ≠ path := fun hc =>
        hp (List.mem_append_right _ (by rw [hc]; exact List.mem_singleton_self path))
      show (if p = path then some after else st.1 p) = fs₀ p
      rw [if_neg hp2]
      exact hInv1 p hp1
    · intro p hp
      rcases List.mem_append.1 hp with hp | hp
      · have hp2 : p ≠ path := fun hc => hpath (hc ▸ hp)
        show (if p = path then some after else st.1 p) ≠ fs₀ p
        rw [if_neg hp2]
        exact hInv2 p hp
      · rw [List.mem_singleton] at hp
        subst hp
        show (if p = p then some after else st.1 p) ≠ fs₀ p
        rw [if_pos rfl]
        intro heq
        rw [← hInv1 p hpath, hread] at heq
        exact hne (Option.some.inj heq).symm
    · intro p hp
      rcases List.mem_append.1 hp with hp | hp
      · exact Or.inl hp
      · exact Or.inr (List.mem_singleton.1 hp)
    · intro p hp
      refine ⟨?_, ?_⟩
      · show (if p = path then some after else st.1 p) = st.1 p
        rw [if_neg hp]
      · constructor
        · intro hm
          rcases List.mem_append.1 hm with hm | hm
          · exact hm
          · exact absurd (List.mem_singleton.1 hm) hp
        · exact fun hm => List.mem_append_left _ hm
  · exact ⟨hInv1, hInv2, fun p hp => Or.inl hp, fun p _ => ⟨rfl, Iff.rfl⟩⟩

theorem writeStep_inv {fs₀ : List Char → Option (List Char)}
    {st : (List Char → Option (List Char)) × List (List Char)}
    {path before after : List Char}
    (hInv1 : ∀ p, p ∉ st.2 → st.1 p = fs₀ p)
    (hInv2 : ∀ p, p ∈ st.2 → st.1 p ≠ fs₀ p)
    (hpath : path ∉ st.2) (hread : st.1 path = some before) :
    (∀ p, p ∉ (writeStep path before after st).2 →
      (writeStep path before after st).1 p = fs₀ p) ∧
    (∀ p, p ∈ (writeStep path before after st).2 →
      (writeStep path before after st).1 p ≠ fs₀ p) ∧
    (∀ p, p ∈ (writeStep path before after st).2 → p ∈ st.2 ∨ p = path) ∧
    (∀ p, p ≠ path → (writeStep path before after st).1 p = st.1 p ∧
      (p ∈ (writeStep path before after st).2 ↔ p ∈ st.2)) := by
  unfold writeStep
  by_cases hba : before = after
  · rw [if_pos hba]
    exact @guardedWrite_inv fs₀ st st path before after hInv1 hInv2 hpath hread (Or.inr rfl)
  · rw [if_neg hba]
    exact guardedWrite_inv hInv1 hInv2 hpath hread (Or.inl ⟨hba, rfl⟩)

theorem writeStep_noop {path b a : List Char}
    {st : (List Char → Option (List Char)) × List (List Char)} (h : b = a) :
    writeStep path b a st = st := by
  unfold writeStep
  rw [if_pos h]

theorem readmeStep_inv {fs₀ : List Char → Option (List Char)} {v : List Char}
    {st : (List Char → Option (List Char)) × List (List Char)}
    (hInv1 : ∀ p, p ∉ st.2 → st.1 p = fs₀ p)
    (hInv2 : ∀ p, p ∈ st.2 → st.1 p ≠ fs₀ p)
    (hpath : readmePath ∉ st.2) :
    (∀ p, p ∉ (readmeStep v st).2 → (readmeStep v st).1 p = fs₀ p) ∧
    (∀ p, p ∈ (readmeStep v st).2 → (readmeStep v st).1 p ≠ fs₀ p) ∧
    (∀ p, p ∈ (readmeStep v st).2 → p ∈ st.2 ∨ p = readmePath) ∧
    (∀ p, p ≠ readmePath → (readmeStep v st).1 p = st.1 p ∧
      (p ∈ (readmeStep v st).2 ↔ p ∈ st.2)) := by
  unfold readmeStep
  rcases hrd : st.1 readmePath with _ | rdText
  · exact ⟨hInv1, hInv2, fun p hp => Or.inl hp, fun p _ => ⟨rfl, Iff.rfl⟩⟩
  · dsimp only
    by_cases hc : ((replace_latest_readme rdText v).2.2 &&
        !(rdText = (replace_latest_readme rdText v).2.1 : Bool)) = true
    · rw [if_pos hc]
      refine guardedWrite_inv hInv1 hInv2 hpath hrd (Or.inl ⟨?_, rfl⟩)
      have hc' := hc
      rw [Bool.and_eq_true] at hc'
      simpa using hc'.2
    · rw [if_neg hc]
      exact ⟨hInv1, hInv2, fun p hp => Or.inl hp, fun p _ => ⟨rfl, Iff.rfl⟩⟩

theorem readmeStep_noop {v rdText : List Char}
    {st : (List Char → Option (List Char)) × List (List Char)}
    (hrd : st.1 readmePath = some rdText)
    (hno : (replace_latest_readme rdText v).2.1 = rdText) :
    readmeStep v st = st := by
  unfold readmeStep
  rw [hrd]
  simp [hno]

theorem publishingStep_inv {fs₀ : List Char → Option (List Char)} {v : List Char}
    {st : (List Char → Option (List Char)) × List (List Char)}
    (hInv1 : ∀ p, p ∉ st.2 → st.1 p = fs₀ p)
    (hInv2 : ∀ p, p ∈ st.2 → st.1 p ≠ fs₀ p)
    (hpath : publishingPath ∉ st.2) :
    (∀ p, p ∉ (publishingStep v st).2 → (publishingStep v st).1 p = fs₀ p) ∧
    (∀ p, p ∈ (publishingStep v st).2 → (publishingStep v st).1 p ≠ fs₀ p) ∧
    (∀ p, p ∈ (publishingStep v st).2 → p ∈ st.2 ∨ p = publishingPath) ∧
    (∀ p, p ≠ publishingPath → (publishingStep v st).1 p = st.1 p ∧
      (p ∈ (publishingStep v st).2 ↔ p ∈ st.2)) := by
  unfold publishingStep
  rcases hpub : st.1 publishingPath with _ | pubText
  · exact ⟨hInv1, hInv2, fun p hp => Or.inl hp, fun p _ => ⟨rfl, Iff.rfl⟩⟩
  · exact writeStep_inv hInv1 hInv2 hpath hpub

theorem publishingStep_noop {v pubText : List Char}
    {st : (List Char → Option (List Char)) × List (List Char)}
    (hpub : st.1 publishingPath = some pubText)
    (hno : (update_publishing pubText v).2.1 = pubText) :
    publishingStep v st = st := by
  unfold publishingStep
  rw [hpub]
  exact writeStep_noop hno.symm

theorem testStep_inv {fs₀ : List Char → Option (List Char)} {v path : List Char}
    {st : (List Char → Option (List Char)) × List (List Char)}
    (hInv1 : ∀ p, p ∉ st.2 → st.1 p = fs₀ p)
    (hInv2 : ∀ p, p ∈ st.2 → st.1 p ≠ fs₀ p)
    (hpath : path ∉ st.2) :
    (∀ p, p ∉ (testStep v path st).2 → (testStep v path st).1 p = fs₀ p) ∧
    (∀ p, p ∈ (testStep v path st).2 → (testStep v path st).1 p ≠ fs₀ p) ∧
    (∀ p, p ∈ (testStep v path st).2 → p ∈ st.2 ∨ p = path) ∧
    (∀ p, p ≠ path → (testStep v path st).1 p = st.1 p ∧
      (p ∈ (testStep v path st).2 ↔ p ∈ st.2)) := by
  unfold testStep
  rcases ht : st.1 path with _ | tText
  · exact ⟨hInv1, hInv2, fun p hp => Or.inl hp, fun p _ => ⟨rfl, Iff.rfl⟩⟩
  · dsimp only
    by_cases hc : ((update_test_version_checks tText v).2.2 &&
        !(tText = (update_test_version_checks tText v).2.1 : Bool)) = true
    · rw [if_pos hc]
      refine guardedWrite_inv hInv1 hInv2 hpath ht (Or.inl ⟨?_, rfl⟩)
      have hc' := hc
      rw [Bool.and_eq_true] at hc'
      simpa using hc'.2
    · rw [if_neg hc]
      exact ⟨hInv1, hInv2, fun p hp => Or.inl hp, fun p _ => ⟨rfl, Iff.rfl⟩⟩

theorem testStep_noop {v path tText : List Char}
    {st : (List Char → Option (List Char)) × List (List Char)}
    (ht : st.1 path = some tText)
    (hno : (update_test_version_checks tText v).2.1 = tText) :
    testStep v path st = st := by
  unfold testStep
  rw [ht]
  simp [hno]

/-- C6: in the file-editing phase of `main`, unmarked files keep their
original content and marked files really changed; consequently, for every
target file whose transformation returned its original text unchanged, the
file is neither written back nor added to the changed-file set. -/
theorem C6_no_op_files (fs : List Char → Option (List Char)) (v : List Char)
    (notes : List (List Char))
    (fs' : List Char → Option (List Char)) (ch : List (List Char))
    (h : mainEdits fs v notes = some (fs', ch)) :
    (∀ p, p ∉ ch → fs' p = fs p) ∧
    (∀ p, p ∈ ch → fs' p ≠ fs p) ∧
    (∀ extText extAfter, fs extPath = some extText →
      update_extension_toml extText v = some extAfter → extAfter = extText →
      fs' extPath = fs extPath ∧ extPath ∉ ch) ∧
    (∀ clText clAfter, fs changelogPath = some clText →
      insert_changelog clText v notes = some clAfter → clAfter = clText →
      fs' changelogPath = fs changelogPath ∧ changelogPath ∉ ch) ∧
    (∀ rdText, fs readmePath = some rdText →
      (replace_latest_readme rdText v).2.1 = rdText →
      fs' readmePath = fs readmePath ∧ readmePath ∉ ch) ∧
    (∀ pubText, fs publishingPath = some pubText →
      (update_publishing pubText v).2.1 = pubText →
      fs' publishingPath = fs publishingPath ∧ publishingPath ∉ ch) ∧
    (∀ tText, fs testShPath = some tText →
      (update_test_version_checks tText v).2.1 = tText →
      fs' testShPath = fs testShPath ∧ testShPath ∉ ch) ∧
    (∀ tText, fs testYmlPath = some tText →
      (update_test_version_checks tText v).2.1 = tText →
      fs' testYmlPath = fs testYmlPath ∧ testYmlPath ∉ ch) := by
  unfold mainEdits at h
  rcases hext : fs extPath with _ | extText <;> rw [hext] at h
  · exact Option.noConfusion h
  dsimp only at h
  rcases hcl : fs changelogPath with _ | clText <;> rw [hcl] at h
  · exact Option.noConfusion h
  dsimp only at h
  rcases hup : update_extension_toml extText v with _ | extAfter <;> rw [hup] at h
  · exact Option.noConfusion h
  dsimp only at h
  rcases hins : insert_changelog clText v notes with _ | clAfter <;> rw [hins] at h
  · exact Option.noConfusion h
  dsimp only at h
  have hE : testStep v testYmlPath (testStep v testShPath (publishingStep v
      (readmeStep v (writeStep changelogPath clText clAfter
        (writeStep extPath extText extAfter (fs, [])))))) = (fs', ch) :=
    Option.some.inj h
  have hfs' : fs' = (testStep v testYmlPath (testStep v testShPath (publishingStep v
      (readmeStep v (writeStep changelogPath clText clAfter
        (writeStep extPath extText extAfter (fs, []))))))).1 :=
    (congrArg Prod.fst hE).symm
  have hch : ch = (testStep v testYmlPath (testStep v testShPath (publishingStep v
      (readmeStep v (writeStep changelogPath clText clAfter
        (writeStep extPath extText extAfter (fs, []))))))).2 :=
    (congrArg Prod.snd hE).symm
  subst hfs'
  subst hch
  set st1 := writeStep extPath extText extAfter (fs, []) with hst1def
  set st2 := writeStep changelogPath clText clAfter st1 with hst2def
  set st3 := readmeStep v st2 with hst3def
  set st4 := publishingStep v st3 with hst4def
  set st5 := testStep v testShPath st4 with hst5def
  set st6 := testStep v testYmlPath st5 with hst6def
  have I1 := @writeStep_inv fs (fs, []) extPath extText extAfter (fun _ _ => rfl)
    (fun p hp => absurd hp (List.not_mem_nil p)) (List.not_mem_nil _) hext
  rw [← hst1def] at I1
  have hpath2 : changelogPath ∉ st1.2 := by
    intro hc
    rcases I1.2.2.1 _ hc with hmem | heq
    · exact List.not_mem_nil _ hmem
    · exact (by decide : changelogPath ≠ extPath) heq
  have hread2 : st1.1 changelogPath = some clText := by
    rw [(I1.2.2.2 changelogPath (by decide)).1]
    exact hcl
  have I2 := @writeStep_inv fs st1 changelogPath clText clAfter I1.1 I1.2.1 hpath2 hread2
  rw [← hst2def] at I2
  have hsub2 : ∀ p, p ∈ st2.2 → p = extPath ∨ p = changelogPath := by
    intro p hp
    rcases I2.2.2.1 p hp with hp | hp
    · rcases I1.2.2.1 p hp with hp | hp
      · exact absurd hp (List.not_mem_nil p)
      · exact Or.inl hp
    · exact Or.inr hp
  have hpath3 : readmePath ∉ st2.2 := by
    intro hc
    rcases hsub2 _ hc with hc | hc
    · exact (by decide : readmePath ≠ extPath) hc
    · exact (by decide : readmePath ≠ changelogPath) hc
  have I3 := @readmeStep_inv fs v st2 I2.1 I2.2.1 hpath3
  rw [← hst3def] at I3
  have hsub3 : ∀ p, p ∈ st3.2 →
      p = extPath ∨ p = changelogPath ∨ p = readmePath := by
    intro p hp
    rcases I3.2.2.1 p hp with hp | hp
    · rcases hsub2 p hp with hp | hp
      · exact Or.inl hp
      · exact Or.inr (Or.inl hp)
    · exact Or.inr (Or.inr hp)
  have hpath4 : publishingPath ∉ st3.2 := by
    intro hc
    rcases hsub3 _ hc with hc | hc | hc
    · exact (by decide : publishingPath ≠ extPath) hc
    · exact (by decide : publishingPath ≠ changelogPath) hc
    · exact (by decide : publishingPath ≠ readmePath) hc
  have I4 := @publishingStep_inv fs v st3 I3.1 I3.2.1 hpath4
  rw [← hst4def] at I4
  have hsub4 : ∀ p, p ∈ st4.2 →
      p = extPath ∨ p = changelogPath ∨ p = readmePath ∨ p = publishingPath := by
    intro p hp
    rcases I4.2.2.1 p hp with hp | hp
    · rcases hsub3 p hp with hp | hp | hp
      · exact Or.inl hp
      · exact Or.inr (Or.inl hp)
      · exact Or.inr (Or.inr (Or.inl hp))
    · exact Or.inr (Or.inr (Or.inr hp))
  have hpath5 : testShPath ∉ st4.2 := by
    intro hc
    rcases hsub4 _ hc with hc | hc | hc | hc
    · exact (by decide : testShPath ≠ extPath) hc
    · exact (by decide : testShPath ≠ changelogPath) hc
    · exact (by decide : testShPath ≠ readmePath) hc
    · exact (by decide : testShPath ≠ publishingPath) hc
  have I5 := @testStep_inv fs v testShPath st4 I4.1 I4.2.1 hpath5
  rw [← hst5def] at I5
  have hsub5 : ∀ p, p ∈ st5.2 → p = extPath ∨ p = changelogPath ∨
      p = readmePath ∨ p = publishingPath ∨ p = testShPath := by
    intro p hp
    rcases I5.2.2.1 p hp with hp | hp
    · rcases hsub4 p hp with hp | hp | hp | hp
      · exact Or.inl hp
      · exact Or.inr (Or.inl hp)
      · exact Or.inr (Or.inr (Or.inl hp))
      · exact Or.inr (Or.inr (Or.inr (Or.inl hp)))
    · exact Or.inr (Or.inr (Or.inr (Or.inr hp)))
  have hpath6 : testYmlPath ∉ st5.2 := by
    intro hc
    rcases hsub5 _ hc with hc | hc | hc | hc | hc
    · exact (by decide : testYmlPath ≠ extPath) hc
    · exact (by decide : testYmlPath ≠ changelogPath) hc
    · exact (by decide : testYmlPath ≠ readmePath) hc
    · exact (by decide : testYmlPath ≠ publishingPath) hc
    · exact (by decide : testYmlPath ≠ testShPath) hc
  have I6 := @testStep_inv fs v testYmlPath st5 I5.1 I5.2.1 hpath6
  rw [← hst6def] at I6
  refine ⟨I6.1, I6.2.1, ?_, ?_, ?_, ?_, ?_, ?_⟩
  · intro extText' extAfter' hext' hup' heq
    have hT : extText' = extText := (Option.some.inj hext').symm
    rw [hT] at hup'
    have hA : extAfter' = extAfter := Option.some.inj (hup'.symm.trans hup)
    have hno : st1 = (fs, []) :=
      writeStep_noop (by rw [← hT, ← hA]; exact heq.symm)
    constructor
    · rw [(I6.2.2.2 extPath (by decide)).1, (I5.2.2.2 extPath (by decide)).1,
        (I4.2.2.2 extPath (by decide)).1, (I3.2.2.2 extPath (by decide)).1,
        (I2.2.2.2 extPath (by decide)).1, hno]
      exact hext
    · intro hc
      have h5 := (I6.2.2.2 extPath (by decide)).2.1 hc
      have h4 := (I5.2.2.2 extPath (by decide)).2.1 h5
      have h3 := (I4.2.2.2 extPath (by decide)).2.1 h4
      have h2 := (I3.2.2.2 extPath (by decide)).2.1 h3
      have h1 := (I2.2.2.2 extPath (by decide)).2.1 h2
      rw [hno] at h1
      exact List.not_mem_nil _ h1
  · intro clText' clAfter' hcl' hins' heq
    have hT : clText' = clText := (Option.some.inj hcl').symm
    rw [hT] at hins'
    have hA : clAfter' = clAfter := Option.some.inj (hins'.symm.trans hins)
    have hno : st2 = st1 :=
      writeStep_noop (by rw [← hT, ← hA]; exact heq.symm)
    constructor
    · rw [(I6.2.2.2 changelogPath (by decide)).1, (I5.2.2.2 changelogPath (by decide)).1,
        (I4.2.2.2 changelogPath (by decide)).1, (I3.2.2.2 changelogPath (by decide)).1,
        hno, (I1.2.2.2 changelogPath (by decide)).1]
      exact hcl
    · intro hc
      have h5 := (I6.2.2.2 changelogPath (by decide)).2.1 hc
      have h4 := (I5.2.2.2 changelogPath (by decide)).2.1 h5
      have h3 := (I4.2.2.2 changelogPath (by decide)).2.1 h4
      have h2 := (I3.2.2.2 changelogPath (by decide)).2.1 h3
      rw [hno] at h2
      exact hpath2 h2
  · intro rdText hrd' hno'
    have hrd2 : st2.1 readmePath = some rdText := by
      rw [(I2.2.2.2 readmePath (by decide)).1, (I1.2.2.2 readmePath (by decide)).1]
      exact hrd'
    have hno3 : st3 = st2 := readmeStep_noop hrd2 hno'
    constructor
    · rw [(I6.2.2.2 readmePath (by decide)).1, (I5.2.2.2 readmePath (by decide)).1,
        (I4.2.2.2 readmePath (by decide)).1, hno3,
        (I2.2.2.2 readmePath (by decide)).1, (I1.2.2.2 readmePath (by decide)).1]
    · intro hc
      have h5 := (I6.2.2.2 readmePath (by decide)).2.1 hc
      have h4 := (I5.2.2.2 readmePath (by decide)).2.1 h5
      have h3 := (I4.2.2.2 readmePath (by decide)).2.1 h4
      rw [hno3] at h3
      exact hpath3 h3
  · intro pubText hpub' hno'
    have hpub3 : st3.1 publishingPath = some pubText := by
      rw [(I3.2.2.2 publishingPath (by decide)).1, (I2.2.2.2 publishingPath (by decide)).1,
        (I1.2.2.2 publishingPath (by decide)).1]
      exact hpub'
    have hno4 : st4 = st3 := publishingStep_noop hpub3 hno'
    constructor
    · rw [(I6.2.2.2 publishingPath (by decide)).1, (I5.2.2.2 publishingPath (by decide)).1,
        hno4, (I3.2.2.2 publishingPath (by decide)).1,
        (I2.2.2.2 publishingPath (by decide)).1, (I1.2.2.2 publishingPath (by decide)).1]
    · intro hc
      have h5 := (I6.2.2.2 publishingPath (by decide)).2.1 hc
      have h4 := (I5.2.2.2 publishingPath (by decide)).2.1 h5
      rw [hno4] at h4
      exact hpath4 h4
  · intro tText ht' hno'
    have ht4 : st4.1 testShPath = some tText := by
      rw [(I4.2.2.2 testShPath (by decide)).1, (I3.2.2.2 testShPath (by decide)).1,
        (I2.2.2.2 testShPath (by decide)).1, (I1.2.2.2 testShPath (by decide)).1]
      exact ht'
    have hno5 : st5 = st4 := testStep_noop ht4 hno'
    constructor
    · rw [(I6.2.2.2 testShPath (by decide)).1, hno5,
        (I4.2.2.2 testShPath (by decide)).1, (I3.2.2.2 testShPath (by decide)).1,
        (I2.2.2.2 testShPath (by decide)).1, (I1.2.2.2 testShPath (by decide)).1]
    · intro hc
      have h5 := (I6.2.2.2 testShPath (by decide)).2.1 hc
      rw [hno5] at h5
      exact hpath5 h5
  · intro tText ht' hno'
    have ht5 : st5.1 testYmlPath = some tText := by
      rw [(I5.2.2.2 testYmlPath (by decide)).1, (I4.2.2.2 testYmlPath (by decide)).1,
        (I3.2.2.2 testYmlPath (by decide)).1, (I2.2.2.2 testYmlPath (by decide)).1,
        (I1.2.2.2 testYmlPath (by decide)).1]
      exact ht'
    have hno6 : st6 = st5 := testStep_noop ht5 hno'
    constructor
    · rw [hno6, (I5.2.2.2 testYmlPath (by decide)).1,
        (I4.2.2.2 testYmlPath (by decide)).1, (I3.2.2.2 testYmlPath (by decide)).1,
        (I2.2.2.2 testYmlPath (by decide)).1, (I1.2.2.2 testYmlPath (by decide)).1]
    · intro hc
      rw [hno6] at hc
      exact hpath6 hc

/-- Witness for C6 at a concrete run: the readme lacks a `### Latest:` line,
so it is left unwritten and unmarked while manifest and changelog are both
written and marked. -/
theorem C6_no_op_files_witness :
    mainEdits
        (fun p =>
          if p = extPath then some "version = \"0.0.8\"\n".toList
          else if p = changelogPath then some "# CL\n".toList
          else if p = readmePath then some "readme\n".toList
          else none)
        "0.0.9".toList ["n".toList]
      = some
        (fsWrite
          (fsWrite
            (fun p =>
              if p = extPath then some "version = \"0.0.8\"\n".toList
              else if p = changelogPath then some "# CL\n".toList
              else if p = readmePath then some "readme\n".toList
              else none)
            extPath "version = \"0.0.9\"\n".toList)
          changelogPath "# CL\n## 0.0.9\n\n- n\n\n".toList,
         [extPath, changelogPath])
    ∧ (fsWrite
        (fsWrite
          (fun p =>
            if p = extPath then some "version = \"0.0.8\"\n".toList
            else if p = changelogPath then some "# CL\n".toList
            else if p = readmePath then some "readme\n".toList
            else none)
          extPath "version = \"0.0.9\"\n".toList)
        changelogPath "# CL\n## 0.0.9\n\n- n\n\n".toList) readmePath
      = some "readme\n".toList
    ∧ readmePath ∉ [extPath, changelogPath] := by
  have hmain :
      mainEdits
          (fun p =>
            if p = extPath then some "version = \"0.0.8\"\n".toList
            else if p = changelogPath then some "# CL\n".toList
            else if p = readmePath then some "readme\n".toList
            else none)
          "0.0.9".toList ["n".toList]
        = some
          (fsWrite
            (fsWrite
              (fun p =>
                if p = extPath then some "version = \"0.0.8\"\n".toList
                else if p = changelogPath then some "# CL\n".toList
                else if p = readmePath then some "readme\n".toList
                else none)
              extPath "version = \"0.0.9\"\n".toList)
            changelogPath "# CL\n## 0.0.9\n\n- n\n\n".toList,
           [extPath, changelogPath]) := rfl
  have hc := C6_no_op_files _ "0.0.9".toList ["n".toList] _ _ hmain
  have hrd := hc.2.2.2.2.1 "readme\n".toList (by decide) (by decide)
  refine ⟨hmain, ?_, hrd.2⟩
  rw [hrd.1]
  decide

/-! ### Manifest-pattern lemmas (C3) -/

/-- Full characterisation of one manifest-pattern attempt: the greedy runs
need no extra side conditions because each is followed by a character it can
never contain. -/
theorem matchVersionLine_iff {cs val rest : List Char} :
    matchVersionLine cs = some (val, rest) ↔
      ∃ w1 w2, (∀ c ∈ w1, isWs c = true) ∧ (∀ c ∈ w2, isWs c = true) ∧
        val ≠ [] ∧ (∀ c ∈ val, (c == '"') = false) ∧
        cs = "version".toList ++
          (w1 ++ ('=' :: (w2 ++ ('"' :: (val ++ ('"' :: rest)))))) := by
  constructor
  · intro h
    unfold matchVersionLine at h
    rw [Option.bind_eq_some] at h
    obtain ⟨r1, h1, h⟩ := h
    rw [Option.bind_eq_some] at h
    obtain ⟨r3, h3, h⟩ := h
    rw [Option.bind_eq_some] at h
    obtain ⟨r5, h5, h⟩ := h
    dsimp only at h
    by_cases hemp : (r5.takeWhile fun c => !(c == '"')).isEmpty
    · rw [if_pos hemp] at h
      cases h
    · rw [if_neg hemp] at h
      rw [Option.map_eq_some'] at h
      obtain ⟨r7, h7, hpair⟩ := h
      injection hpair with hval hrest
      obtain ⟨w1, hw1mem, hw1⟩ :
          ∃ w1, (∀ c ∈ w1, isWs c = true) ∧ r1 = w1 ++ ('=' :: r3) := by
        refine ⟨r1.takeWhile isWs, fun c hc => List.mem_takeWhile_imp hc, ?_⟩
        conv_lhs => rw [← List.takeWhile_append_dropWhile isWs r1]
        rw [parseLit_eq_some.1 h3]
        rfl
      obtain ⟨w2, hw2mem, hw2⟩ :
          ∃ w2, (∀ c ∈ w2, isWs c = true) ∧ r3 = w2 ++ ('"' :: r5) := by
        refine ⟨r3.takeWhile isWs, fun c hc => List.mem_takeWhile_imp hc, ?_⟩
        conv_lhs => rw [← List.takeWhile_append_dropWhile isWs r3]
        rw [parseLit_eq_some.1 h5]
        rfl
      have hr5 : r5 = val ++ ('"' :: r7) := by
        conv_lhs => rw [← List.takeWhile_append_dropWhile (fun c => !(c == '"')) r5]
        rw [parseLit_eq_some.1 h7, hval]
        rfl
      refine ⟨w1, w2, hw1mem, hw2mem, ?_, ?_, ?_⟩
      · rw [← hval]
        intro hnil
        rw [hnil] at hemp
        exact hemp rfl
      · intro c hc
        rw [← hval] at hc
        have := List.mem_takeWhile_imp hc
        simpa using this
      · rw [parseLit_eq_some.1 h1, hw1, hw2, hr5, hrest]
  · rintro ⟨w1, w2, hw1, hw2, hvne, hvq, rfl⟩
    unfold matchVersionLine
    rw [parseLit_eq_some.2 rfl, Option.some_bind]
    rw [dropWhile_append_of_all w1 _ hw1 (by decide : isWs '=' = false)]
    rw [show parseLit ['='] ('=' :: (w2 ++ ('"' :: (val ++ ('"' :: rest)))))
        = some (w2 ++ ('"' :: (val ++ ('"' :: rest)))) from parseLit_eq_some.2 rfl,
      Option.some_bind]
    rw [dropWhile_append_of_all w2 _ hw2 (by decide : isWs '"' = false)]
    rw [show parseLit ['"'] ('"' :: (val ++ ('"' :: rest)))
        = some (val ++ ('"' :: rest)) from parseLit_eq_some.2 rfl,
      Option.some_bind]
    dsimp only
    have hvq' : ∀ c ∈ val, (fun c => !(c == '"')) c = true := by
      intro c hc
      simp [hvq c hc]
    rw [takeWhile_append_of_head_neg val _ hvq'
      (by decide : (fun c => !(c == '"')) '"' = false)]
    rw [if_neg (by rw [List.isEmpty_iff]; exact hvne)]
    rw [dropWhile_append_of_all val _ hvq'
      (by decide : (fun c => !(c == '"')) '"' = false)]
    rw [show parseLit ['"'] ('"' :: rest) = some rest from parseLit_eq_some.2 rfl,
      Option.map_some']

theorem parseDigits1_decomp {cs r : List Char} (h : parseDigits1 cs = some r) :
    ∃ d, cs = d ++ r ∧ d ≠ [] ∧ ∀ c ∈ d, isDigit c = true := by
  rcases cs with _ | ⟨c, t⟩
  · cases h
  · simp only [parseDigits1] at h
    by_cases hc : isDigit c
    · rw [if_pos hc] at h
      injection h with h
      refine ⟨c :: t.takeWhile isDigit, ?_, List.cons_ne_nil c _, ?_⟩
      · rw [List.cons_append, ← h, List.takeWhile_append_dropWhile]
      · intro x hx
        rcases List.mem_cons.1 hx with rfl | hx
        · exact hc
        · exact List.mem_takeWhile_imp hx
    · rw [if_neg hc] at h
      cases h

/-- A three-component version is non-empty and contains only digits and
dots — in particular no quote, no whitespace and no newline. -/
theorem isTriple_chars {v : List Char} (hv : isTriple v = true) :
    v ≠ [] ∧ ∀ c ∈ v, isDigit c = true ∨ c = '.' := by
  have hv' : parseTriple v = some [] := by
    unfold isTriple at hv
    exact beq_iff_eq.1 hv
  unfold parseTriple at hv'
  rw [Option.bind_eq_some] at hv'
  obtain ⟨r1, h1, hv'⟩ := hv'
  rw [Option.bind_eq_some] at hv'
  obtain ⟨r2, h2, hv'⟩ := hv'
  rw [Option.bind_eq_some] at hv'
  obtain ⟨r3, h3, hv'⟩ := hv'
  rw [Option.bind_eq_some] at hv'
  obtain ⟨r4, h4, h5⟩ := hv'
  obtain ⟨d1, hd1, hd1ne, hd1dig⟩ := parseDigits1_decomp h1
  obtain ⟨d2, hd2, _, hd2dig⟩ := parseDigits1_decomp h3
  obtain ⟨d3, hd3, _, hd3dig⟩ := parseDigits1_decomp h5
  have hr1 : r1 = '.' :: r2 := parseLit_eq_some.1 h2
  have hr3 : r3 = '.' :: r4 := parseLit_eq_some.1 h4
  rw [List.append_nil] at hd3
  constructor
  · rw [hd1]
    rcases d1 with _ | _
    · exact absurd rfl hd1ne
    · exact List.cons_ne_nil _ _
  · intro c hc
    rw [hd1, hr1, hd2, hr3, hd3] at hc
    rcases List.mem_append.1 hc with hc | hc
    · exact Or.inl (hd1dig c hc)
    · rcases List.mem_cons.1 hc with rfl | hc
      · exact Or.inr rfl
      · rcases List.mem_append.1 hc with hc | hc
        · exact Or.inl (hd2dig c hc)
        · rcases List.mem_cons.1 hc with rfl | hc
          · exact Or.inr rfl
          · exact Or.inl (hd3dig c hc)

theorem isTriple_no_quote {v : List Char} (hv : isTriple v = true) :
    ∀ c ∈ v, (c == '"') = false := by
  intro c hc
  rcases (isTriple_chars hv).2 c hc with h | h
  · by_contra hq
    rw [Bool.not_eq_false, beq_iff_eq] at hq
    rw [hq] at h
    exact absurd h (by decide)
  · rw [h]
    decide

/-- The replacement `version = "{v}"` followed by any remainder matches the
manifest pattern, capturing exactly `v`. -/
theorem matchVersionLine_repl {v : List Char} (hv : isTriple v = true)
    (after : List Char) :
    matchVersionLine (replVersion v ++ after) = some (v, after) := by
  rw [matchVersionLine_iff]
  refine ⟨[' '], [' '], by decide, by decide, (isTriple_chars hv).1,
    isTriple_no_quote hv, ?_⟩
  have hlit : "version = \"".toList
      = "version".toList ++ ([' '] ++ ('=' :: ([' '] ++ ['"']))) := by decide
  unfold replVersion
  rw [hlit]
  simp [List.append_assoc]

theorem findVersion_decomp :
    ∀ {flag : Bool} {cs pre val after : List Char},
      findVersion flag cs = some (pre, val, after) →
      ∃ S, cs = pre ++ S ∧ matchVersionLine S = some (val, after)
  | _, [], _, _, _, h => by cases h
  | flag, c :: rest, pre, val, after, h => by
    unfold findVersion at h
    by_cases hf : flag
    · rw [if_pos hf] at h
      rcases hm : matchVersionLine (c :: rest) with _ | ⟨v0, a0⟩
      · rw [hm] at h
        rw [Option.map_eq_some'] at h
        obtain ⟨q, hq, hpair⟩ := h
        injection hpair with hpre hrest2
        injection hrest2 with hval hafter
        obtain ⟨S, hS, hmS⟩ := findVersion_decomp hq
        rw [hval, hafter] at hmS
        exact ⟨S, by rw [← hpre, List.cons_append, hS], hmS⟩
      · rw [hm] at h
        dsimp only at h
        injection h with h
        injection h with hpre hrest2
        injection hrest2 with hval hafter
        refine ⟨c :: rest, by rw [← hpre]; rfl, ?_⟩
        rw [hm, hval, hafter]
    · rw [if_neg hf] at h
      rw [Option.map_eq_some'] at h
      obtain ⟨q, hq, hpair⟩ := h
      injection hpair with hpre hrest2
      injection hrest2 with hval hafter
      obtain ⟨S, hS, hmS⟩ := findVersion_decomp hq
      rw [hval, hafter] at hmS
      exact ⟨S, by rw [← hpre, List.cons_append, hS], hmS⟩

theorem wsNotQuote : ∀ c : Char, isWs c = true → (c == '"') = false := by
  intro c h
  by_contra hq
  rw [Bool.not_eq_false, beq_iff_eq] at hq
  subst hq
  exact absurd h (by decide)

/-- Mapping a manifest-pattern match across a replacement: if both `S` and
`S'` begin with a full pattern match and the pattern matches at the start of
`A ++ S'`, then it also matches at the start of `A ++ S` (the attempt either
stays inside `A`, or its open quote's body runs into the matched region,
which again ends at a quote in both texts). -/
theorem matchVersionLine_map {S S' valM af valR af' val₀ rest₀ : List Char}
    (hM : matchVersionLine S = some (valM, af))
    (hR : matchVersionLine S' = some (valR, af')) (A : List Char)
    (h : matchVersionLine (A ++ S') = some (val₀, rest₀)) :
    ∃ val rest, matchVersionLine (A ++ S) = some (val, rest) := by
  rcases A with _ | ⟨x, A₂⟩
  · exact ⟨valM, af, by rw [List.nil_append]; exact hM⟩
  obtain ⟨w1M, w2M, hw1M, hw2M, hvMne, hvMq, hSM⟩ := matchVersionLine_iff.1 hM
  obtain ⟨w1R, w2R, _hw1R, _hw2R, _h3R, _h4R, hS'⟩ := matchVersionLine_iff.1 hR
  have hlitv : "version".toList = 'v' :: "ersion".toList := by decide
  have hT₁ : ∃ T₁, S' = 'v' :: T₁ := by
    rw [hS', hlitv]
    exact ⟨_, rfl⟩
  obtain ⟨T₁, hT₁⟩ := hT₁
  obtain ⟨w1, w2, hw1, hw2, hbne, hbq, hEq⟩ := matchVersionLine_iff.1 h
  have hlitq : ∀ c ∈ "version".toList, (c == '"') = false := by decide
  rcases List.append_eq_append_iff.mp hEq with ⟨e, hlite, hS'e⟩ | ⟨e, hAe, hWe⟩
  · -- the literal would extend past `A`: impossible since `S'` starts with
    -- `v` and `version` has no second `v` and no whitespace
    exfalso
    rcases e with _ | ⟨e₀, e'⟩
    · rw [List.append_nil] at hlite
      rw [List.nil_append, hT₁] at hS'e
      rcases w1 with _ | ⟨y, w1'⟩
      · rw [List.nil_append] at hS'e
        injection hS'e with h1 _
        exact absurd h1 (by decide)
      · rw [List.cons_append] at hS'e
        injection hS'e with h1 _
        have hy : isWs y = true := hw1 y (List.mem_cons_self _ _)
        rw [← h1] at hy
        exact absurd hy (by decide)
    · rw [hT₁, List.cons_append] at hS'e
      injection hS'e with h1 _
      rw [hlitv, List.cons_append] at hlite
      injection hlite with _ h2
      have : 'v' ∈ A₂ ++ (e₀ :: e') := by
        rw [h1]
        exact List.mem_append_right _ (List.mem_cons_self _ _)
      rw [← h2] at this
      exact absurd this (by decide)
  · -- A = lit ++ e
    rcases List.append_eq_append_iff.mp hWe with ⟨f, hef, hfS'⟩ | ⟨f, hw1f, hS'f⟩
    · -- e = w1 ++ f and '=' :: rest = f ++ S'
      rcases f with _ | ⟨f₀, f'⟩
      · exfalso
        rw [List.nil_append, hT₁] at hfS'
        injection hfS' with h1 _
        exact absurd h1 (by decide)
      · rw [List.cons_append] at hfS'
        injection hfS' with hf₀ hfrest
        -- hf₀ : '=' = f₀, hfrest : w2 ++ ('"' :: ...) = f' ++ S'
        rcases List.append_eq_append_iff.mp hfrest with ⟨g, hfg, hgS'⟩ | ⟨g, hw2g, hS'g⟩
        · -- f' = w2 ++ g and '"' :: (val₀ ++ '"'::rest₀) = g ++ S'
          rcases g with _ | ⟨g₀, g'⟩
          · exfalso
            rw [List.nil_append, hT₁] at hgS'
            injection hgS' with h1 _
            exact absurd h1 (by decide)
          · rw [List.cons_append] at hgS'
            injection hgS' with hg₀ hgrest
            -- hg₀ : '"' = g₀, hgrest : val₀ ++ ('"'::rest₀) = g' ++ S'
            rcases List.append_eq_append_iff.mp hgrest with ⟨k, hgk, hkS'⟩ | ⟨k, hvk, hS'k⟩
            · -- g' = val₀ ++ k and '"'::rest₀ = k ++ S'
              rcases k with _ | ⟨k₀, k'⟩
              · exfalso
                rw [List.nil_append, hT₁] at hkS'
                injection hkS' with h1 _
                exact absurd h1 (by decide)
              · rw [List.cons_append] at hkS'
                injection hkS' with hk₀ hkrest
                -- the whole match sits inside A
                refine ⟨val₀, k' ++ S, ?_⟩
                rw [matchVersionLine_iff]
                refine ⟨w1, w2, hw1, hw2, hbne, hbq, ?_⟩
                rw [hAe, hef, hfg, hgk, ← hf₀, ← hg₀, ← hk₀]
                simp [List.append_assoc]
            · -- val₀ = g' ++ k and S' = k ++ ('"'::rest₀): the body runs into
              -- the matched region; on the `S` side it closes at the
              -- replacement's open quote
              refine ⟨g' ++ ("version".toList ++ (w1M ++ ('=' :: w2M))),
                valM ++ ('"' :: af), ?_⟩
              rw [matchVersionLine_iff]
              refine ⟨w1, w2, hw1, hw2, ?_, ?_, ?_⟩
              · intro hnil
                have := congrArg List.length hnil
                simp at this
              · intro c hc
                rcases List.mem_append.1 hc with hc | hc
                · exact hbq c (by rw [hvk]; exact List.mem_append_left _ hc)
                · rcases List.mem_append.1 hc with hc | hc
                  · exact hlitq c hc
                  · rcases List.mem_append.1 hc with hc | hc
                    · exact wsNotQuote c (hw1M c hc)
                    · rcases List.mem_cons.1 hc with rfl | hc
                      · decide
                      · exact wsNotQuote c (hw2M c hc)
              · rw [hAe, hef, hfg, ← hf₀, ← hg₀, hSM]
                simp [List.append_assoc]
        · -- w2 = f' ++ g and S' = g ++ ('"'::...): impossible
          exfalso
          rcases g with _ | ⟨g₀, g'⟩
          · rw [List.nil_append, hT₁] at hS'g
            injection hS'g with h1 _
            exact absurd h1.symm (by decide)
          · rw [hT₁, List.cons_append] at hS'g
            injection hS'g with h1 _
            have hy : isWs g₀ = true := by
              refine hw2 g₀ ?_
              rw [hw2g]
              exact List.mem_append_right _ (List.mem_cons_self _ _)
            rw [← h1] at hy
            exact absurd hy (by decide)
    · -- w1 = e ++ f and S' = f ++ ('='::...): impossible
      exfalso
      rcases f with _ | ⟨f₀, f'⟩
      · rw [List.nil_append, hT₁] at hS'f
        injection hS'f with h1 _
        exact absurd h1.symm (by decide)
      · rw [hT₁, List.cons_append] at hS'f
        injection hS'f with h1 _
        have hy : isWs f₀ = true := by
          refine hw1 f₀ ?_
          rw [hw1f]
          exact List.mem_append_right _ (List.mem_cons_self _ _)
        rw [← h1] at hy
        exact absurd hy (by decide)

/-- Replacing the first matched region of the manifest pattern with another
region that also begins with a full pattern match moves the first `re.search`
match to exactly the same position: every earlier line-start attempt fails in
the new text exactly as it failed in the old one. -/
theorem findVersion_transfer {S S' valM af valR af' : List Char}
    (hM : matchVersionLine S = some (valM, af))
    (hR : matchVersionLine S' = some (valR, af')) :
    ∀ (pre : List Char) (flag : Bool),
      findVersion flag (pre ++ S) = some (pre, valM, af) →
      findVersion flag (pre ++ S') = some (pre, valR, af') := by
  intro pre
  induction pre with
  | nil =>
    intro flag hfirst
    rw [List.nil_append] at hfirst ⊢
    rcases S with _ | ⟨s₀, S₁⟩
    · rw [show matchVersionLine ([] : List Char) = none from by decide] at hM
      exact Option.noConfusion hM
    rcases S' with _ | ⟨t₀, T₁'⟩
    · rw [show matchVersionLine ([] : List Char) = none from by decide] at hR
      exact Option.noConfusion hR
    rcases flag with _ | _
    · exfalso
      rw [show findVersion false (s₀ :: S₁) =
          (findVersion (s₀ == '\n') S₁).map (fun p => (s₀ :: p.1, p.2.1, p.2.2))
          from rfl] at hfirst
      rcases hx : findVersion (s₀ == '\n') S₁ with _ | q
      · rw [hx] at hfirst
        exact Option.noConfusion hfirst
      · rw [hx] at hfirst
        simp only [Option.map_some'] at hfirst
        have h2 := Option.some.inj hfirst
        have h1 := congrArg Prod.fst h2
        exact List.cons_ne_nil _ _ h1
    · rw [show findVersion true (t₀ :: T₁') =
          (match matchVersionLine (t₀ :: T₁') with
           | some (val, after) => some ([], val, after)
           | none =>
             (findVersion (t₀ == '\n') T₁').map fun p => (t₀ :: p.1, p.2.1, p.2.2))
          from rfl, hR]
  | cons p pre' ih =>
    intro flag hfirst
    rw [List.cons_append] at hfirst ⊢
    rcases flag with _ | _
    · rw [show findVersion false (p :: (pre' ++ S)) =
          (findVersion (p == '\n') (pre' ++ S)).map
            (fun q => (p :: q.1, q.2.1, q.2.2)) from rfl] at hfirst
      rw [show findVersion false (p :: (pre' ++ S')) =
          (findVersion (p == '\n') (pre' ++ S')).map
            (fun q => (p :: q.1, q.2.1, q.2.2)) from rfl]
      rcases hx : findVersion (p == '\n') (pre' ++ S) with _ | ⟨q1, q2, q3⟩
      · rw [hx] at hfirst
        exact Option.noConfusion hfirst
      · rw [hx] at hfirst
        simp only [Option.map_some', Option.some.injEq, Prod.mk.injEq,
          List.cons.injEq, true_and] at hfirst
        obtain ⟨hq1, hq2, hq3⟩ := hfirst
        subst hq1
        subst hq2
        subst hq3
        rw [ih (p == '\n') hx]
        rfl
    · rw [show findVersion true (p :: (pre' ++ S)) =
          (match matchVersionLine (p :: (pre' ++ S)) with
           | some (val, after) => some ([], val, after)
           | none =>
             (findVersion (p == '\n') (pre' ++ S)).map
               fun q => (p :: q.1, q.2.1, q.2.2)) from rfl] at hfirst
      rcases hm : matchVersionLine (p :: (pre' ++ S)) with _ | pair
      · rw [hm] at hfirst
        have hm' : matchVersionLine (p :: (pre' ++ S')) = none := by
          rcases hmm : matchVersionLine (p :: (pre' ++ S')) with _ | q
          · rfl
          · exfalso
            obtain ⟨val, rest, hmap⟩ :=
              matchVersionLine_map hM hR (p :: pre')
                (show matchVersionLine ((p :: pre') ++ S') = some (q.1, q.2) by
                  rw [List.cons_append, hmm])
            rw [List.cons_append, hm] at hmap
            exact Option.noConfusion hmap
        rw [show findVersion true (p :: (pre' ++ S')) =
            (match matchVersionLine (p :: (pre' ++ S')) with
             | some (val, after) => some ([], val, after)
             | none =>
               (findVersion (p == '\n') (pre' ++ S')).map
                 fun q => (p :: q.1, q.2.1, q.2.2)) from rfl, hm']
        rcases hx : findVersion (p == '\n') (pre' ++ S) with _ | ⟨q1, q2, q3⟩
        · rw [hx] at hfirst
          exact Option.noConfusion hfirst
        · rw [hx] at hfirst
          simp only [Option.map_some', Option.some.injEq, Prod.mk.injEq,
            List.cons.injEq, true_and] at hfirst
          obtain ⟨hq1, hq2, hq3⟩ := hfirst
          subst hq1
          subst hq2
          subst hq3
          rw [ih (p == '\n') hx]
          rfl
      · exfalso
        rw [hm] at hfirst
        have hfirst' : some (([] : List Char), pair.1, pair.2)
            = some (p :: pre', valM, af) := hfirst
        have h2 := Option.some.inj hfirst'
        have h1 := congrArg Prod.fst h2
        exact List.cons_ne_nil _ _ h1.symm

/-- C3: for a three-component target version `V`, `update_extension_toml` is
fatal when the multiline pattern `^version\s*=\s*"([^"]+)"` has no match or
when the first match's captured value already equals `V`; on success the
first match is located at a decomposition `text = pre ++ S` with the pattern
matching at the head of `S`, only that matched region is replaced by
`version = "V"` (the remainder `after`, including any text after the closing
quote on the matched line, is preserved), and applying the updater again to
the output with the same `V` is fatal. -/
theorem C3_version_update (text v : List Char) (hv : isTriple v = true) :
    (findVersion true text = none → update_extension_toml text v = none)
    ∧ (∀ pre after, findVersion true text = some (pre, v, after) →
        update_extension_toml text v = none)
    ∧ (∀ out, update_extension_toml text v = some out →
        ∃ pre cur after S,
          findVersion true text = some (pre, cur, after) ∧ cur ≠ v ∧
          text = pre ++ S ∧ matchVersionLine S = some (cur, after) ∧
          out = pre ++ (replVersion v ++ after) ∧
          update_extension_toml out v = none) := by
  refine ⟨?_, ?_, ?_⟩
  · intro hnone
    rw [show update_extension_toml text v =
        (match findVersion true text with
         | none => none
         | some (pre, current, after) =>
           if current = v then none else some (pre ++ replVersion v ++ after))
        from rfl, hnone]
  · intro pre after hfound
    rw [show update_extension_toml text v =
        (match findVersion true text with
         | none => none
         | some (pre, current, after) =>
           if current = v then none else some (pre ++ replVersion v ++ after))
        from rfl, hfound]
    show (if v = v then none else some (pre ++ replVersion v ++ after)) = none
    rw [if_pos rfl]
  · intro out hupd
    rcases hf : findVersion true text with _ | ⟨pre, cur, after⟩
    · rw [show update_extension_toml text v =
          (match findVersion true text with
           | none => none
           | some (pre, current, after) =>
             if current = v then none else some (pre ++ replVersion v ++ after))
          from rfl, hf] at hupd
      exact Option.noConfusion hupd
    · rw [show update_extension_toml text v =
          (match findVersion true text with
           | none => none
           | some (pre, current, after) =>
             if current = v then none else some (pre ++ replVersion v ++ after))
          from rfl, hf] at hupd
      have hupd' : (if cur = v then none
          else some (pre ++ replVersion v ++ after)) = some out := hupd
      by_cases hcv : cur = v
      · rw [if_pos hcv] at hupd'
        exact Option.noConfusion hupd'
      · rw [if_neg hcv] at hupd'
        have hout := Option.some.inj hupd'
        obtain ⟨S, hSdec, hSm⟩ := findVersion_decomp hf
        have hR := matchVersionLine_repl hv after
        have htrans := findVersion_transfer hSm hR pre true
          (by rw [← hSdec]; exact hf)
        refine ⟨pre, cur, after, S, rfl, hcv, hSdec, hSm, ?_, ?_⟩
        · rw [← hout, List.append_assoc]
        · have hofv : findVersion true out = some (pre, v, after) := by
            rw [← hout, List.append_assoc]
            exact htrans
          rw [show update_extension_toml out v =
              (match findVersion true out with
               | none => none
               | some (pre, current, after) =>
                 if current = v then none
                 else some (pre ++ replVersion v ++ after))
              from rfl, hofv]
          show (if v = v then none
              else some (pre ++ replVersion v ++ after)) = none
          rw [if_pos rfl]

/-- C3 witness: on `version = "0.0.8"\n` with target `0.0.9` the updater
succeeds, the replaced region is the whole match, and re-applying on the
output is fatal. -/
theorem C3_version_update_witness :
    ∃ pre cur after S,
      findVersion true ("version = \"0.0.8\"\n".toList)
        = some (pre, cur, after) ∧
      cur ≠ "0.0.9".toList ∧
      "version = \"0.0.8\"\n".toList = pre ++ S ∧
      matchVersionLine S = some (cur, after) ∧
      "version = \"0.0.9\"\n".toList
        = pre ++ (replVersion ("0.0.9".toList) ++ after) ∧
      update_extension_toml ("version = \"0.0.9\"\n".toList) ("0.0.9".toList)
        = none :=
  (C3_version_update ("version = \"0.0.8\"\n".toList) ("0.0.9".toList)
    (by decide)).2.2 ("version = \"0.0.9\"\n".toList) (by decide)

/-- C3 counterexample to the claimed output shape: on a manifest whose
version line carries a trailing comment, only the matched region
`version = "1.0.0"` is replaced, so the first version line of the output is
`version = "2.0.0" # pinned` — it does not become exactly `version = "2.0.0"`
as the claim states. -/
theorem C3_counterexample :
    update_extension_toml ("version = \"1.0.0\" # pinned\n".toList)
      ("2.0.0".toList)
      = some ("version = \"2.0.0\" # pinned\n".toList)
    ∧ "version = \"2.0.0\" # pinned\n".toList ≠ "version = \"2.0.0\"\n".toList
    := by decide

end ZedRelease
